import Mathlib

/-!
Verification of the uniseg text-segmentation library against its
natural-language specification.  Each definition below is a shallow
embedding of a function of the Python source (file and line references in
the doc comments); strings are modelled as lists of characters, machine
integers as Nat / Int, and fallible code as Except.  The generated table
module `uniseg/db_lookups.py` and the module `uniseg/codepoint.py` are not
part of the published sources; where a definition depends on them it is
parameterised by the property-lookup function and marked as modelled from
the specification.
-/

/-- Python errors that the embedded code can raise. -/
inductive PyErr where
  | typeError
  | attributeError
  | keyError
  | valueError
  | overflowError
  | indexError
  | nameError
deriving DecidableEq, Repr

/-- `class Breakable(Enum)` of `uniseg/breaking.py` lines 18-23:
`DoNotBreak = 0`, `Break = 1`. -/
inductive Breakable where
  | DoNotBreak
  | Break
deriving DecidableEq, Repr

/-- The loop of `boundaries` (`uniseg/breaking.py` lines 279-282):
`for i, breakable in enumerate(breakables): if breakable: yield i`,
carried out from absolute index `j`. -/
def boundariesGo : List Nat → Nat → List Nat
  | [], _ => []
  | bk :: rest, j =>
      if bk ≠ 0 then j :: boundariesGo rest (j + 1) else boundariesGo rest (j + 1)

/-- `boundaries` (`uniseg/breaking.py` lines 261-284): yield every index
holding a truthy breakable, then `i+1` (the length of the sequence) when
the loop ran at least once, i.e. when the input is non-empty. -/
def boundaries (b : List Nat) : List Nat :=
  boundariesGo b 0 ++ (if b.isEmpty then [] else [b.length])

/-- The loop of `break_units` (`uniseg/breaking.py` lines 299-304):
`i = 0; for j, bk in enumerate(breakables): if bk: (if j: yield s[i:j]); i = j`,
followed by `if s: yield s[i:]`.  The recursion consumes the breakable list
while carrying the absolute index `j` and the last break position `i`;
the Python slice `s[i:j]` is `(s.drop i).take (j - i)`. -/
def breakUnitsGo (s : List Char) : List Nat → Nat → Nat → List (List Char)
  | [], _, i => if s.isEmpty then [] else [s.drop i]
  | bk :: rest, j, i =>
      if bk ≠ 0 then
        if j ≠ 0 then (s.drop i).take (j - i) :: breakUnitsGo s rest (j + 1) j
        else breakUnitsGo s rest (j + 1) j
      else breakUnitsGo s rest (j + 1) i

/-- `break_units` (`uniseg/breaking.py` lines 287-306). -/
def break_units (s : List Char) (b : List Nat) : List (List Char) :=
  breakUnitsGo s b 0 0

/-- `class Run` of `uniseg/breaking.py` lines 34-258.  `text` is the input
string, `values` the precomputed property list, `skip` the skip set,
`breakables` the decision vector (`None` = undecided), `position` the
cursor, `condition` the validity flag.  This is the `Run` that
`uniseg/breaking.py` actually defines: its `is_following` signature is
`is_following(self, values, /, variable=False, noskip=False)` and
`breakables` is a plain property holding a list. -/
structure Run (α : Type) where
  text : List Char
  values : List α
  skip : List α
  breakables : List (Option Breakable)
  position : Nat
  condition : Bool

/-- `Run.__init__` (`uniseg/breaking.py` lines 37-51): values are computed
by the property function, the skip set starts empty, every decision starts
as `None`, the position at 0, and the condition is the truthiness of the
text. -/
def Run.init {α : Type} (text : List Char) (f : Char → α) : Run α :=
  { text := text
    values := text.map f
    skip := []
    breakables := text.map (fun _ => none)
    position := 0
    condition := !text.isEmpty }

/-- The inner loop of `Run._calc_position` (`uniseg/breaking.py` line 115):
`while 0 <= i < len(self._text) and (not noskip and self._values[i] in
self._skip): i += vec`, run with enough fuel to cover the list. -/
def skipMemAt {α : Type} [DecidableEq α] (values skip : List α) (i : Int) : Bool :=
  match values[i.toNat]? with
  | some v => decide (v ∈ skip)
  | none => false

def skipAdv {α : Type} [DecidableEq α] (values skip : List α) (vec : Int) :
    Int → Nat → Int
  | i, 0 => i
  | i, fuel + 1 =>
      if 0 ≤ i ∧ skipMemAt values skip i = true then
        skipAdv values skip vec (i + vec) fuel
      else i

/-- One step of `Run._calc_position` (`uniseg/breaking.py` lines 110-117):
`i += vec` followed by the skip loop (unless `noskip`). -/
def runStep {α : Type} [DecidableEq α] (values skip : List α) (vec : Int)
    (noskip : Bool) (i : Int) : Int :=
  let i := i + vec
  if noskip then i else skipAdv values skip vec i (values.length + 1)

/-- `Run._calc_position` (`uniseg/breaking.py` lines 110-117): `vec` is the
sign of the offset and the step is repeated `abs(offset)` times. -/
def Run.calcPosition {α : Type} [DecidableEq α] (r : Run α) (offset : Int)
    (noskip : Bool) : Int :=
  let vec : Int := if offset = 0 then 0 else if 0 < offset then 1 else -1
  Nat.rec (motive := fun _ => Int) (r.position : Int)
    (fun _ i => runStep r.values r.skip vec noskip i) offset.natAbs

/-- `Run.value` (`uniseg/breaking.py` lines 119-142): the property at
`position + offset` after stepping, or `None` when the run is invalid or
the index is out of range. -/
def Run.value {α : Type} [DecidableEq α] (r : Run α) (offset : Int)
    (noskip : Bool := false) : Option α :=
  let i := r.calcPosition offset noskip
  if r.condition = true ∧ 0 ≤ i ∧ i < (r.text.length : Int) then
    r.values[i.toNat]?
  else none

/-- `Run.walk` (`uniseg/breaking.py` lines 148-160) for the default call
`run.walk()` (offset 1, no `noskip`): compute the new position, clamp it
into range, and invalidate the run on overshoot.  Returns the updated run
and the returned condition. -/
def Run.walk {α : Type} [DecidableEq α] (r : Run α) : Run α × Bool :=
  if r.condition then
    let pos := r.calcPosition 1 false
    if pos < 0 then ({ r with position := 0, condition := false }, false)
    else if (r.text.length : Int) ≤ pos then
      ({ r with position := r.text.length - 1, condition := false }, false)
    else ({ r with position := pos.toNat, condition := true }, true)
  else (r, false)

/-- `Run.head` (`uniseg/breaking.py` lines 162-164). -/
def Run.head {α : Type} (r : Run α) : Run α :=
  { r with position := 0, condition := true }

/-- `Run.break_here` (`uniseg/breaking.py` lines 239-241): write `Break`
only when the text is non-empty and the decision at the current position
is still `None`. -/
def Run.break_here {α : Type} (r : Run α) : Run α :=
  if r.text ≠ [] ∧ r.breakables[r.position]? = some none then
    { r with breakables := r.breakables.set r.position (some Breakable.Break) }
  else r

/-- `Run.do_not_break_here` (`uniseg/breaking.py` lines 243-245): write
`DoNotBreak` only when the decision at the current position is still
`None`. -/
def Run.do_not_break_here {α : Type} (r : Run α) : Run α :=
  if r.text ≠ [] ∧ r.breakables[r.position]? = some none then
    { r with breakables := r.breakables.set r.position (some Breakable.DoNotBreak) }
  else r

/-- `Run.set_default` (`uniseg/breaking.py` lines 250-253): replace every
`None` decision with the given default, leaving decided positions
unchanged. -/
def Run.set_default {α : Type} (r : Run α) (d : Breakable) : Run α :=
  { r with breakables := r.breakables.map (fun x => match x with
      | none => some d
      | some v => some v) }

/-- `grapheme_cluster_breakables` of `uniseg/graphemecluster.py` lines
75-157, as executed against the `Run` class that `uniseg/breaking.py`
defines.  The property function passed to `Run` is
`uniseg.db.indic_conjunct_break`, which returns a `bool`; it is a
parameter here because the generated table module is not in the sources.
For a non-empty string the first loop iteration evaluates
`run.is_following(('Extend', 'Linker'), greedy=True)` (line 96), but
`Run.is_following` accepts only the keywords `variable` and `noskip`
(`uniseg/breaking.py` lines 229-232), so the call raises `TypeError`;
when the string has a single character the loop body never runs and
`incb_breakables = run.breakables()` (line 104) calls the list held by
the `breakables` property, which also raises `TypeError`. -/
def grapheme_cluster_breakables (incb : Char → Bool) (s : List Char) :
    Except PyErr (List Nat) :=
  if s.isEmpty then .ok []
  else
    let run := Run.init s incb
    if (run.walk).2 then
      .error .typeError
    else
      .error .typeError

/-- `class LineBreak(Enum)` of `uniseg/linebreak.py` lines 26-75. -/
inductive LineBreak where
  | BK | CR | LF | CM | NL | SG | WJ | ZW | GL | SP | ZWJ | B2 | BA | BB
  | HY | CB | CL | CP | EX | IN | NS | OP | QU | IS | NU | PO | PR | SY
  | AI | AK | AL | AP | AS | CJ | EB | EM | H2 | H3 | HL | ID | JL | JV
  | JT | RI | SA | VF | VI | XX
deriving DecidableEq, Repr

/-- `resolve_lb1_linebreak` of `uniseg/linebreak.py` lines 110-122: AI, SG
and XX resolve to AL; SA resolves to CM for general categories Mn and Mc
and to AL otherwise; CJ resolves to NS.  The Line_Break table lookup and
`unicodedata.category` are passed in as functions (the generated table is
not in the sources). -/
def resolve_lb1_linebreak (lb_of : Char → LineBreak) (category : Char → String)
    (ch : Char) : LineBreak :=
  let lb := lb_of ch
  if lb = .AI ∨ lb = .SG ∨ lb = .XX then .AL
  else if lb = .SA then
    (if category ch = "Mn" ∨ category ch = "Mc" then .CM else .AL)
  else if lb = .CJ then .NS
  else lb

/-- One iteration of the first rule pass of `line_break_breakables`
(`uniseg/linebreak.py` lines 145-165): LB4, LB5, LB6 and LB7 read
`run.prev` and `run.curr`, which the `Run` of `uniseg/breaking.py`
supports; when none of them matches, the LB8 condition
`run.is_following((LB.SP,), greedy=True)` (line 161) is evaluated, and
`Run.is_following` rejects the keyword `greedy` with a `TypeError`. -/
def lbMainBody (r : Run LineBreak) : Except PyErr (Run LineBreak) :=
  let prev := r.value (-1)
  let curr := r.value 0
  if prev = some .BK then .ok r.break_here
  else if prev = some .CR ∧ curr = some .LF then .ok r.do_not_break_here
  else if prev = some .CR ∨ prev = some .LF ∨ prev = some .NL then .ok r.break_here
  else if curr = some .BK ∨ curr = some .CR ∨ curr = some .LF ∨ curr = some .NL then
    .ok r.do_not_break_here
  else if curr = some .SP ∨ curr = some .ZW then .ok r.do_not_break_here
  else .error .typeError

/-- The `while run.walk():` loop around `lbMainBody`, with fuel; each
`walk` advances the position by at least one, so `s.length + 1` steps are
enough. -/
def lbMainLoop : Run LineBreak → Nat → Except PyErr (Run LineBreak)
  | r, 0 => .ok r
  | r, fuel + 1 =>
      if (r.walk).2 then (lbMainBody (r.walk).1).bind (fun r2 => lbMainLoop r2 fuel)
      else .ok (r.walk).1

/-- `line_break_breakables` of `uniseg/linebreak.py` lines 125-426, as
executed against the `Run` class that `uniseg/breaking.py` defines.  The
`legacy` parameter is accepted (line 125) but never read by the body.
After LB2 (`run.do_not_break_here()`, line 144) and the first rule pass,
the LB9 stage runs `run.head()` and `while run.walk():` whose body begins
with `run.is_following((LB.CM, LB.ZWJ), greedy=True)` (line 171), raising
`TypeError`; if that loop body never runs (single-character input),
`run.set_skip_table(skip_table)` (line 180) raises `AttributeError`
because this `Run` has no `set_skip_table`. -/
def line_break_breakables (lb_of : Char → LineBreak) (category : Char → String)
    (s : List Char) (legacy : Bool) : Except PyErr (List Nat) :=
  if s.isEmpty then .ok []
  else
    let run := Run.init s (resolve_lb1_linebreak lb_of category)
    let run := run.do_not_break_here
    match lbMainLoop run (s.length + 1) with
    | .error e => .error e
    | .ok run =>
        let run := run.head
        if (run.walk).2 then .error .typeError
        else .error .attributeError

/-- `class WordBreak(Enum)` of `uniseg/wordbreak.py` lines 26-46. -/
inductive WordBreak where
  | OTHER | CR | LF | NEWLINE | EXTEND | ZWJ | REGIONAL_INDICATOR | FORMAT
  | KATAKANA | HEBREW_LETTER | ALETTER | SINGLE_QUOTE | DOUBLE_QUOTE
  | MIDNUMLET | MIDLETTER | MIDNUM | NUMERIC | EXTENDNUMLET | WSEGSPACE
deriving DecidableEq, Repr

/-- `AHLetterTuple` of `uniseg/wordbreak.py` line 52. -/
def AHLetterTuple : List WordBreak := [.ALETTER, .HEBREW_LETTER]

/-- `MidNumLetQTuple` of `uniseg/wordbreak.py` line 53. -/
def MidNumLetQTuple : List WordBreak := [.MIDNUMLET, .SINGLE_QUOTE]

/-- `class Runner` of `uniseg/wordbreak.py` lines 78-151.  Unlike `Run`,
its breakable vector is a list of 0/1 initialised to all 1 (line 84), with
no undecided state. -/
structure Runner where
  text : List Char
  values : List WordBreak
  skip : List WordBreak
  breakables : List Nat
  i : Nat

/-- `Runner.__init__` (`uniseg/wordbreak.py` lines 80-85); the
`word_break` property function is a parameter because the generated table
module and `uniseg/codepoint.py` are not in the sources. -/
def Runner.init (wb : Char → WordBreak) (s : List Char) : Runner :=
  { text := s
    values := s.map wb
    skip := []
    breakables := s.map (fun _ => 1)
    i := 0 }

/-- `Runner.value` (`uniseg/wordbreak.py` lines 119-130): for offset 0 the
raw value at the current index; otherwise step `abs(offset)` times in the
direction of the offset, skipping values in the skip set, and return the
value if the final index is in range. -/
def Runner.value (r : Runner) (offset : Int) : Option WordBreak :=
  if offset = 0 then r.values[r.i]?
  else
    let vec : Int := if 0 < offset then 1 else -1
    let j := Nat.rec (motive := fun _ => Int) (r.i : Int)
      (fun _ i => runStep r.values r.skip vec false i) offset.natAbs
    if 0 ≤ j ∧ j < (r.values.length : Int) then r.values[j.toNat]? else none

/-- `Runner.curr` (`uniseg/wordbreak.py` lines 103-105). -/
def Runner.curr (r : Runner) : Option WordBreak := r.value 0

/-- `Runner.prev` (`uniseg/wordbreak.py` lines 107-109). -/
def Runner.prev (r : Runner) : Option WordBreak := r.value (-1)

/-- `Runner.next` (`uniseg/wordbreak.py` lines 111-113). -/
def Runner.next (r : Runner) : Option WordBreak := r.value 1

/-- The skip loop of `Runner.walk` (`uniseg/wordbreak.py` lines 134-135):
`while self._i < len(self._text) and self._values[self._i] in self._skip:
self._i += 1`. -/
def runnerSkipFwd (values skip : List WordBreak) : Nat → Nat → Nat
  | i, 0 => i
  | i, fuel + 1 =>
      match values[i]? with
      | some v => if v ∈ skip then runnerSkipFwd values skip (i + 1) fuel else i
      | none => i

/-- `Runner.walk` (`uniseg/wordbreak.py` lines 132-136): increment the
index, skip past skip-set values, and report whether the index is still in
range. -/
def Runner.walk (r : Runner) : Runner × Bool :=
  let i := runnerSkipFwd r.values r.skip (r.i + 1) (r.values.length + 1)
  ({ r with i := i }, i < r.values.length)

/-- `Runner.head` (`uniseg/wordbreak.py` lines 138-139). -/
def Runner.head (r : Runner) : Runner := { r with i := 0 }

/-- `Runner.break_here` (`uniseg/wordbreak.py` lines 144-145): write 1 at
the current index unconditionally. -/
def Runner.break_here (r : Runner) : Runner :=
  { r with breakables := r.breakables.set r.i 1 }

/-- `Runner.do_not_break_here` (`uniseg/wordbreak.py` lines 147-148):
write 0 at the current index unconditionally. -/
def Runner.do_not_break_here (r : Runner) : Runner :=
  { r with breakables := r.breakables.set r.i 0 }

/-- `run.chr` (`uniseg/wordbreak.py` lines 115-117), used by WB3c. -/
def Runner.chrAt (r : Runner) : Option Char := r.text[r.i]?

/-- The body of the first pass of `word_breakables`
(`uniseg/wordbreak.py` lines 171-189): WB3, WB3a, WB3b, WB3c, WB3d and
WB4.  `ep` is the `extended_pictographic` lookup. -/
def wbPass1Body (ep : Char → Bool) (r : Runner) : Runner :=
  if r.prev = some .CR ∧ r.curr = some .LF then r.do_not_break_here
  else if r.prev = some .NEWLINE ∨ r.prev = some .CR ∨ r.prev = some .LF then
    r.break_here
  else if r.curr = some .NEWLINE ∨ r.curr = some .CR ∨ r.curr = some .LF then
    r.break_here
  else if r.prev = some .ZWJ ∧ (r.chrAt.map ep).getD false = true then
    r.do_not_break_here
  else if r.prev = some .WSEGSPACE ∧ r.curr = some .WSEGSPACE then
    r.do_not_break_here
  else if r.curr = some .FORMAT ∨ r.curr = some .EXTEND ∨ r.curr = some .ZWJ then
    r.do_not_break_here
  else r

/-- The Python membership test `value in tuple` for a possibly absent
property value: `None in t` is False, otherwise elementwise equality. -/
def inTuple (x : Option WordBreak) (l : List WordBreak) : Bool :=
  match x with
  | some v => decide (v ∈ l)
  | none => false

/-- The body of the second pass of `word_breakables`
(`uniseg/wordbreak.py` lines 193-269): WB5 through WB13b, evaluated with
the skip set `{Extend, Format, ZWJ}`. -/
def wbPass2Body (r : Runner) : Runner :=
  if inTuple r.prev AHLetterTuple ∧ inTuple r.curr AHLetterTuple then
    r.do_not_break_here
  else if inTuple r.prev AHLetterTuple
      ∧ inTuple r.curr (WordBreak.MIDLETTER :: MidNumLetQTuple)
      ∧ inTuple r.next AHLetterTuple then
    r.do_not_break_here
  else if inTuple (r.value (-2)) AHLetterTuple
      ∧ inTuple r.prev (WordBreak.MIDLETTER :: MidNumLetQTuple)
      ∧ inTuple r.curr AHLetterTuple then
    r.do_not_break_here
  else if r.prev = some .HEBREW_LETTER ∧ r.curr = some .SINGLE_QUOTE then
    r.do_not_break_here
  else if r.prev = some .HEBREW_LETTER ∧ r.curr = some .DOUBLE_QUOTE
      ∧ r.next = some .HEBREW_LETTER then
    r.do_not_break_here
  else if r.value (-2) = some .HEBREW_LETTER ∧ r.prev = some .DOUBLE_QUOTE
      ∧ r.curr = some .HEBREW_LETTER then
    r.do_not_break_here
  else if r.prev = some .NUMERIC ∧ r.curr = some .NUMERIC then
    r.do_not_break_here
  else if inTuple r.prev AHLetterTuple ∧ r.curr = some .NUMERIC then
    r.do_not_break_here
  else if r.prev = some .NUMERIC ∧ inTuple r.curr AHLetterTuple then
    r.do_not_break_here
  else if r.value (-2) = some .NUMERIC
      ∧ inTuple r.prev (WordBreak.MIDNUM :: MidNumLetQTuple)
      ∧ r.curr = some .NUMERIC then
    r.do_not_break_here
  else if r.prev = some .NUMERIC
      ∧ inTuple r.curr (WordBreak.MIDNUM :: MidNumLetQTuple)
      ∧ r.next = some .NUMERIC then
    r.do_not_break_here
  else if r.prev = some .KATAKANA ∧ r.curr = some .KATAKANA then
    r.do_not_break_here
  else if inTuple r.prev
        (AHLetterTuple ++ ([.NUMERIC, .KATAKANA, .EXTENDNUMLET] : List WordBreak))
      ∧ r.curr = some .EXTENDNUMLET then
    r.do_not_break_here
  else if r.prev = some .EXTENDNUMLET
      ∧ inTuple r.curr (AHLetterTuple ++ ([.NUMERIC, .KATAKANA] : List WordBreak)) then
    r.do_not_break_here
  else r

/-- The `while run.walk():` loops of `word_breakables` with fuel; each
step advances the index by at least one. -/
def wbLoop (body : Runner → Runner) : Runner → Nat → Runner
  | r, 0 => r
  | r, fuel + 1 =>
      if (r.walk).2 then wbLoop body (body (r.walk).1) fuel else (r.walk).1

/-- The seek part of the WB15/WB16 pass (`uniseg/wordbreak.py` lines
273-275): `while run.curr != WB.REGIONAL_INDICATOR: if not run.walk():
break`. -/
def wbSeekRI : Runner → Nat → Runner
  | r, 0 => r
  | r, fuel + 1 =>
      if r.curr ≠ some .REGIONAL_INDICATOR then
        if (r.walk).2 then wbSeekRI (r.walk).1 fuel else (r.walk).1
      else r

/-- The pairing part of the WB15/WB16 pass (`uniseg/wordbreak.py` lines
278-283): pairs of regional indicators are glued and the cursor is
advanced twice between pairs. -/
def wbPairRI : Runner → Nat → Runner
  | r, 0 => r
  | r, fuel + 1 =>
      if r.prev = some .REGIONAL_INDICATOR ∧ r.curr = some .REGIONAL_INDICATOR then
        if (r.do_not_break_here.walk).2 then
          if ((r.do_not_break_here.walk).1.walk).2 then
            wbPairRI ((r.do_not_break_here.walk).1.walk).1 fuel
          else ((r.do_not_break_here.walk).1.walk).1
        else (r.do_not_break_here.walk).1
      else r

/-- The outer `while 1:` of the WB15/WB16 pass (`uniseg/wordbreak.py`
lines 272-283): seek the next regional indicator, advance once (leaving
the loop when the string is exhausted), then pair. -/
def wbOuterRI : Runner → Nat → Runner
  | r, 0 => r
  | r, fuel + 1 =>
      if ((wbSeekRI r (r.values.length + 1)).walk).2 then
        wbOuterRI (wbPairRI ((wbSeekRI r (r.values.length + 1)).walk).1
          (((wbSeekRI r (r.values.length + 1)).walk).1.values.length + 1)) fuel
      else ((wbSeekRI r (r.values.length + 1)).walk).1

/-- `word_breakables` of `uniseg/wordbreak.py` lines 154-285: pass 1
(WB3-WB4) with an empty skip set, pass 2 (WB5-WB13b) with the skip set
`{Extend, Format, ZWJ}` set after `run.head()`, then the WB15/WB16
regional-indicator pass, returning the breakable list.  The
`word_break` property and `extended_pictographic` lookups are parameters
(the generated table module is not in the sources). -/
def word_breakables (ep : Char → Bool) (wb : Char → WordBreak) (s : List Char) :
    List Nat :=
  if s.isEmpty then []
  else
    let r := Runner.init wb s
    let r := wbLoop (wbPass1Body ep) r (s.length + 1)
    let r := { r.head with skip := [.EXTEND, .FORMAT, .ZWJ] }
    let r := wbLoop wbPass2Body r (s.length + 1)
    let r := wbOuterRI r.head (s.length + 2)
    r.breakables

namespace db

/-- Modelled from the spec: the shape of the generated table artifact that
`uniseg/db.py` imports from `uniseg.db_lookups` (spec section 6): the
ordered property names `columns`, the deduplicated rows `values`, the two
stage arrays `index1` and `index2`, and the `shift`.  The generated module
itself is not in the sources, so lookups below take the table as an
argument. -/
structure Lookups where
  columns : List String
  values : List (List String)
  index1 : List Nat
  index2 : List Nat
  shift : Nat

/-- `sys.maxunicode`. -/
def maxunicode : Nat := 0x10FFFF

/-- `_find_break` of `uniseg/db.py` lines 15-22: code points above
`sys.maxunicode` short-circuit to row index 0; otherwise the two-stage
lookup `index2[(index1[cp >> shift] << shift) + (cp & ((1 << shift) - 1))]`
is performed (a Python list subscript out of range raises IndexError). -/
def find_break (t : Lookups) (cp : Nat) : Except PyErr Nat :=
  if maxunicode < cp then .ok 0
  else
    match t.index1[cp >>> t.shift]? with
    | none => .error .indexError
    | some index =>
        match t.index2[(index <<< t.shift) + (cp &&& ((1 <<< t.shift) - 1))]? with
        | none => .error .indexError
        | some v => .ok v

/-- `columns.index(name)` as used by the INDEX_* constants of
`uniseg/db.py` lines 7-12 (Python raises ValueError when the name is
missing). -/
def col_index (t : Lookups) (name : String) : Except PyErr Nat :=
  match t.columns.indexOf? name with
  | some i => .ok i
  | none => .error .valueError

/-- `values[_find_break(ch)][ci] or dflt`: the common body of the
accessors of `uniseg/db.py` lines 25-38; the Python `or` replaces an
empty-string table value by the default. -/
def get_value_or (t : Lookups) (ci : Nat) (cp : Nat) (dflt : String) :
    Except PyErr String :=
  (find_break t cp).bind fun i =>
    match t.values[i]? with
    | none => .error .indexError
    | some row =>
        match row[ci]? with
        | none => .error .indexError
        | some v => .ok (if v = "" then dflt else v)

/-- `grapheme_cluster_break` of `uniseg/db.py` lines 25-26. -/
def grapheme_cluster_break (t : Lookups) (cp : Nat) : Except PyErr String :=
  (col_index t "GraphemeClusterBreak").bind fun ci => get_value_or t ci cp "Other"

/-- `word_break` of `uniseg/db.py` lines 29-30. -/
def word_break (t : Lookups) (cp : Nat) : Except PyErr String :=
  (col_index t "WordBreak").bind fun ci => get_value_or t ci cp "Other"

/-- `sentence_break` of `uniseg/db.py` lines 33-34. -/
def sentence_break (t : Lookups) (cp : Nat) : Except PyErr String :=
  (col_index t "SentenceBreak").bind fun ci => get_value_or t ci cp "Other"

/-- `line_break` of `uniseg/db.py` lines 37-38. -/
def line_break (t : Lookups) (cp : Nat) : Except PyErr String :=
  (col_index t "LineBreak").bind fun ci => get_value_or t ci cp "XX"

/-- `extended_pictographic` of `uniseg/db.py` lines 41-42:
`bool(values[_find_break(ch)][idx])`, the truthiness of the raw string. -/
def extended_pictographic (t : Lookups) (cp : Nat) : Except PyErr Bool :=
  (col_index t "Extended_Pictographic").bind fun ci =>
    (find_break t cp).bind fun i =>
      match t.values[i]? with
      | none => .error .indexError
      | some row =>
          match row[ci]? with
          | none => .error .indexError
          | some v => .ok (v ≠ "")

/-- `indic_conjunct_break` of `uniseg/db.py` lines 45-46: it returns
`bool(values[_find_break(ch)][idx])` - a boolean, not an enum value. -/
def indic_conjunct_break (t : Lookups) (cp : Nat) : Except PyErr Bool :=
  (col_index t "InCB").bind fun ci =>
    (find_break t cp).bind fun i =>
      match t.values[i]? with
      | none => .error .indexError
      | some row =>
          match row[ci]? with
          | none => .error .indexError
          | some v => .ok (v ≠ "")

end db

/-- `class IndicConjunctBreakProperty(enum.Enum)` of
`uniseg/indicconjunctbreak.py` lines 19-28. -/
inductive IndicConjunctBreakProperty where
  | None_
  | Linker
  | Consonant
  | Extend
deriving DecidableEq, Repr

/-- `indic_conjunct_break` of `uniseg/indicconjunctbreak.py` lines 31-53:
`name = _indic_conjunct_break(code_point(c, index))` receives the boolean
that `uniseg.db.indic_conjunct_break` returns, and
`IndicConjunctBreakProperty[name]` subscripts the Enum class with that
boolean; `Enum.__getitem__` looks the key up in the member-name map and
raises `KeyError` for any key that is not a member name string. -/
def indic_conjunct_break (t : db.Lookups) (cp : Nat) :
    Except PyErr (Option IndicConjunctBreakProperty) :=
  (db.indic_conjunct_break t cp).bind fun _name => .error .keyError

/-- Modelled from the spec: a fragment of the generated table (which is
not in the sources) sufficient for U+094D; per the spec and UAX 29,
U+094D (Devanagari sign virama) has Indic_Conjunct_Break value Linker, so
its row carries the non-empty string value in the InCB column.  The
two-stage layout places code point 0x94D = 2381 in row 1. -/
def dbLinkerTable : db.Lookups :=
  { columns := ["GraphemeClusterBreak", "WordBreak", "SentenceBreak",
                "LineBreak", "Extended_Pictographic", "InCB"]
    values := [["", "", "", "", "", ""],
               ["Extend", "Extend", "Extend", "CM", "", "Linker"]]
    index1 := List.replicate 2381 0 ++ [1]
    index2 := [0, 1]
    shift := 0 }

/-- `getsize` of `tools/build_db_lookups.py` lines 12-19: the smallest of
the byte widths 1, 2, 4 that holds the maximum element (`max(data)` on an
empty list raises ValueError). -/
def getsize (data : List Int) : Except PyErr Nat :=
  match data.max? with
  | none => .error .valueError
  | some maxdata =>
      .ok (if maxdata < 0x100 then 1 else if maxdata < 0x10000 then 2 else 4)

/-- The `while n >> 1: n >>= 1; maxshift += 1` loop of `splitbins`
(`tools/build_db_lookups.py` lines 34-36). -/
def shiftCount (n : Nat) : Nat :=
  if 2 ≤ n then shiftCount (n / 2) + 1 else 0
termination_by n
decreasing_by exact Nat.div_lt_self (by omega) (by omega)

/-- `maxshift` as computed by `splitbins` lines 31-37: `n = len(t) - 1`
and the halving loop runs only when `n > 0`. -/
def maxshiftOf (t : List Int) : Nat :=
  if 2 ≤ t.length then shiftCount (t.length - 1) else 0

/-- The chunking `for i in range(0, len(t), size): bin = t[i:i+size]` of
`splitbins` line 45-46. -/
def chunksOf (size : Nat) (l : List Int) : List (List Int) :=
  if l = [] ∨ size = 0 then [] else l.take size :: chunksOf size (l.drop size)
termination_by l.length
decreasing_by
  rename_i h
  push_neg at h
  have h1 : l ≠ [] := h.1
  have h2 : size ≠ 0 := h.2
  have : 0 < l.length := List.length_pos.mpr h1
  simp only [List.length_drop]
  omega

/-- `bincache.get(bin)` of `splitbins` line 47: the first binding of the
bin in the association list (dict keys are unique, so first-match agrees
with the dict). -/
def assocFind : List (List Int × Nat) → List Int → Option Nat
  | [], _ => none
  | (k, v) :: rest, key => if k = key then some v else assocFind rest key

/-- The per-shift table construction of `splitbins` lines 41-52: for each
bin, reuse the cached start index when the bin was seen before, otherwise
append the bin to `t2` and cache its start index; `t1` collects
`index >> shift`. -/
def buildGo (shift : Nat) :
    List (List Int) → List Nat → List Int → List (List Int × Nat) →
      List Nat × List Int
  | [], t1, t2, _ => (t1, t2)
  | bin :: rest, t1, t2, cache =>
      match assocFind cache bin with
      | some index => buildGo shift rest (t1 ++ [index >>> shift]) t2 cache
      | none =>
          let index := t2.length
          buildGo shift rest (t1 ++ [index >>> shift]) (t2 ++ bin)
            (cache ++ [(bin, index)])

/-- The `(t1, t2)` pair that `splitbins` builds for a fixed `shift`
(`size = 2 ** shift`, line 43). -/
def splitbinsAt (t : List Int) (shift : Nat) : List Nat × List Int :=
  buildGo shift (chunksOf (2 ^ shift) t) [] [] []

/-- `sys.maxsize` on a 64-bit build, the initial value of `bytes` in
`splitbins` line 39. -/
def sys_maxsize : Nat := 2 ^ 63 - 1

/-- The `for shift in range(maxshift + 1)` loop of `splitbins` lines
40-57: build the stage pair, compute
`b = len(t1)*getsize(t1) + len(t2)*getsize(t2)` and keep the first
strictly smaller candidate. -/
def splitbinsLoop (t : List Int) :
    List Nat → Nat → Option (List Nat × List Int × Nat) →
      Except PyErr (Option (List Nat × List Int × Nat))
  | [], _, best => .ok best
  | shift :: rest, bytes, best =>
      (getsize ((splitbinsAt t shift).1.map Int.ofNat)).bind fun g1 =>
        (getsize (splitbinsAt t shift).2).bind fun g2 =>
          if (splitbinsAt t shift).1.length * g1
              + (splitbinsAt t shift).2.length * g2 < bytes then
            splitbinsLoop t rest
              ((splitbinsAt t shift).1.length * g1
                + (splitbinsAt t shift).2.length * g2)
              (some ((splitbinsAt t shift).1, (splitbinsAt t shift).2, shift))
          else splitbinsLoop t rest bytes best

/-- `splitbins` of `tools/build_db_lookups.py` lines 22-59: minimise the
combined size over all shifts; `t1, t2, shift = best` raises NameError
when no iteration assigned `best`. -/
def splitbins (t : List Int) : Except PyErr (List Nat × List Int × Nat) :=
  (splitbinsLoop t (List.range (maxshiftOf t + 1)) sys_maxsize none).bind
    fun best =>
      match best with
      | some r => .ok r
      | none => .error .nameError

/-- `array.array('B', data)` as used by `main` of
`tools/build_db_lookups.py` lines 133-134: every element must fit in one
unsigned byte, otherwise Python raises OverflowError.  The emission is
hard-coded to type code B for both stage arrays. -/
def array_array_B (data : List Int) : Except PyErr (List Int) :=
  if data.all (fun x => decide (0 ≤ x ∧ x < 256)) then .ok data
  else .error .overflowError

/-- The reconstruction invariant of C7, exactly as the claim and the
`splitbins` docstring state it:
`t[i] == t2[(t1[i >> shift] << shift) + (i & ((1 << shift) - 1))]`
for each `i in range(len(t))`, with the index into `t2` in range. -/
def reconstructionOk (t : List Int)
    (r : Except PyErr (List Nat × List Int × Nat)) : Prop :=
  match r with
  | .ok (t1, t2, shift) =>
      ∀ i, i < t.length →
        (t1.getD (i >>> shift) 0 <<< shift) + (i &&& ((1 <<< shift) - 1)) < t2.length
        ∧ t2.getD ((t1.getD (i >>> shift) 0 <<< shift) + (i &&& ((1 <<< shift) - 1))) 0
            = t.getD i 0
  | .error _ => False

lemma take_sub_append_drop (s : List Char) (i j : Nat) (h : i ≤ j) :
    (s.drop i).take (j - i) ++ s.drop j = s.drop i := by
  have hdj : s.drop j = (s.drop i).drop (j - i) := by
    rw [List.drop_drop]
    congr 1
    omega
  rw [hdj, List.take_append_drop]

lemma breakUnitsGo_flatten (s : List Char) :
    ∀ (b : List Nat) (j i : Nat), i ≤ j →
      (breakUnitsGo s b j i).flatten = s.drop i := by
  intro b
  induction b with
  | nil =>
      intro j i _
      by_cases hs : s.isEmpty
      · have hs2 : s = [] := by simpa using hs
        simp [breakUnitsGo, hs, hs2]
      · simp [breakUnitsGo, hs]
  | cons bk rest ih =>
      intro j i hij
      simp only [breakUnitsGo]
      by_cases hbk : bk ≠ 0
      · rw [if_pos hbk]
        by_cases hj : j ≠ 0
        · rw [if_pos hj, List.flatten_cons, ih (j + 1) j (Nat.le_succ j)]
          exact take_sub_append_drop s i j hij
        · have hi0 : i = 0 := by omega
          rw [if_neg hj, ih (j + 1) j (Nat.le_succ j)]
          have hj0 : j = 0 := by omega
          rw [hi0, hj0]
      · rw [if_neg hbk, ih (j + 1) i (by omega)]

/-- C6: `break_units(s, breakables)` concatenates back to `s` whenever the
breakable sequence has the same length as the string (in fact for every
breakable sequence): the yielded slices `s[i:j]` are contiguous from 0 and
the final `yield s[i:]` covers the rest. -/
theorem break_units_concat (s : List Char) (b : List Nat)
    (_h : b.length = s.length) : (break_units s b).flatten = s := by
  have h0 := breakUnitsGo_flatten s b 0 0 (Nat.le_refl 0)
  simpa [break_units] using h0

/-- Witness for `break_units_concat` at a concrete input. -/
theorem break_units_concat_witness :
    ([1, 0, 1] : List Nat).length = (['A', 'B', 'C'] : List Char).length ∧
      (break_units ['A', 'B', 'C'] [1, 0, 1]).flatten = ['A', 'B', 'C'] :=
  ⟨by decide, break_units_concat ['A', 'B', 'C'] [1, 0, 1] (by decide)⟩

lemma breakUnitsGo_tokens_nonempty (s : List Char) :
    ∀ (b : List Nat) (j i : Nat), j + b.length = s.length →
      (i < j ∨ (i = 0 ∧ j = 0)) →
      ∀ t ∈ breakUnitsGo s b j i, t ≠ [] := by
  intro b
  induction b with
  | nil =>
      intro j i hlen hinv t ht
      by_cases hs : s.isEmpty
      · simp [breakUnitsGo, hs] at ht
      · simp only [breakUnitsGo] at ht
        rw [if_neg hs] at ht
        rw [List.mem_singleton] at ht
        subst ht
        have hslen : 0 < s.length := by
          cases s with
          | nil => simp at hs
          | cons a l => simp
        have hij : i < s.length := by
          rcases hinv with hlt | ⟨hi0, hj0⟩
          · omega
          · omega
        intro hcon
        have := congrArg List.length hcon
        simp [List.length_drop] at this
        omega
  | cons bk rest ih =>
      intro j i hlen hinv t ht
      simp only [breakUnitsGo] at ht
      by_cases hbk : bk ≠ 0
      · rw [if_pos hbk] at ht
        by_cases hj : j ≠ 0
        · rw [if_pos hj] at ht
          have hij : i < j := by
            rcases hinv with hlt | ⟨_, hj0⟩
            · exact hlt
            · omega
          rcases List.mem_cons.mp ht with hhead | htail
          · subst hhead
            have hjlen : j < s.length := by
              simp only [List.length_cons] at hlen
              omega
            intro hcon
            have := congrArg List.length hcon
            simp [List.length_take, List.length_drop] at this
            omega
          · exact ih (j + 1) j (by simp only [List.length_cons] at hlen; omega)
              (Or.inl (Nat.lt_succ_self j)) t htail
        · rw [if_neg hj] at ht
          exact ih (j + 1) j (by simp only [List.length_cons] at hlen; omega)
            (Or.inl (Nat.lt_succ_self j)) t ht
      · rw [if_neg hbk] at ht
        have hinv2 : i < j + 1 ∨ (i = 0 ∧ j + 1 = 0) := by
          rcases hinv with hlt | ⟨hi0, hj0⟩
          · exact Or.inl (by omega)
          · exact Or.inl (by omega)
        exact ih (j + 1) i (by simp only [List.length_cons] at hlen; omega) hinv2 t ht

lemma breakUnitsGo_ne_nil (s : List Char) (hs : s ≠ []) :
    ∀ (b : List Nat) (j i : Nat), breakUnitsGo s b j i ≠ [] := by
  intro b
  induction b with
  | nil =>
      intro j i
      have : ¬ s.isEmpty := by simpa using hs
      simp [breakUnitsGo, this]
  | cons bk rest ih =>
      intro j i
      simp only [breakUnitsGo]
      by_cases hbk : bk ≠ 0
      · rw [if_pos hbk]
        by_cases hj : j ≠ 0
        · rw [if_pos hj]
          exact List.cons_ne_nil _ _
        · rw [if_neg hj]
          exact ih (j + 1) j
      · rw [if_neg hbk]
        exact ih (j + 1) i

/-- C10: when the breakable sequence has the same length as the string,
every token that `break_units` yields is non-empty (the `if j:` guard
suppresses an empty leading token when index 0 is a break), and a
non-empty string yields at least one token even if the sequence is all
zeros (the trailing `if s: yield s[i:]`). -/
theorem break_units_tokens_nonempty (s : List Char) (b : List Nat)
    (h : b.length = s.length) :
    (∀ t ∈ break_units s b, t ≠ []) ∧ (s ≠ [] → break_units s b ≠ []) := by
  constructor
  · exact breakUnitsGo_tokens_nonempty s b 0 0 (by omega) (Or.inr ⟨rfl, rfl⟩)
  · intro hs
    exact breakUnitsGo_ne_nil s hs b 0 0

/-- Witness for `break_units_tokens_nonempty` at a concrete input. -/
theorem break_units_tokens_nonempty_witness :
    ([1, 1] : List Nat).length = (['x', 'y'] : List Char).length ∧
      ((∀ t ∈ break_units ['x', 'y'] [1, 1], t ≠ []) ∧
        ((['x', 'y'] : List Char) ≠ [] → break_units ['x', 'y'] [1, 1] ≠ [])) :=
  ⟨by decide, break_units_tokens_nonempty ['x', 'y'] [1, 1] (by decide)⟩

lemma boundariesGo_mem :
    ∀ (b : List Nat) (j : Nat), ∀ x ∈ boundariesGo b j, j ≤ x ∧ x < j + b.length := by
  intro b
  induction b with
  | nil =>
      intro j x hx
      simp [boundariesGo] at hx
  | cons bk rest ih =>
      intro j x hx
      simp only [boundariesGo] at hx
      by_cases hbk : bk ≠ 0
      · rw [if_pos hbk] at hx
        rcases List.mem_cons.mp hx with hx0 | hx1
        · subst hx0
          simp
        · have := ih (j + 1) x hx1
          simp only [List.length_cons]
          omega
      · rw [if_neg hbk] at hx
        have := ih (j + 1) x hx
        simp only [List.length_cons]
        omega

lemma boundariesGo_sorted :
    ∀ (b : List Nat) (j : Nat), (boundariesGo b j).Sorted (· < ·) := by
  intro b
  induction b with
  | nil =>
      intro j
      simp [boundariesGo]
  | cons bk rest ih =>
      intro j
      simp only [boundariesGo]
      by_cases hbk : bk ≠ 0
      · rw [if_pos hbk]
        refine List.sorted_cons.mpr ⟨?_, ih (j + 1)⟩
        intro x hx
        have := boundariesGo_mem rest (j + 1) x hx
        omega
      · rw [if_neg hbk]
        exact ih (j + 1)

lemma boundaries_sorted (b : List Nat) : (boundaries b).Sorted (· < ·) := by
  unfold boundaries
  by_cases hb : b.isEmpty
  · rw [if_pos hb]
    simpa using boundariesGo_sorted b 0
  · rw [if_neg hb]
    rw [List.Sorted, List.pairwise_append]
    refine ⟨boundariesGo_sorted b 0, by simp, ?_⟩
    intro x hx y hy
    have hxm := boundariesGo_mem b 0 x hx
    have hym : y = b.length := by simpa using hy
    omega

lemma boundaries_getLast (b : List Nat) (hb : b ≠ []) :
    (boundaries b).getLast? = some b.length := by
  unfold boundaries
  rw [if_neg (by simpa using hb)]
  rw [List.getLast?_concat]

lemma boundaries_empty : boundaries [] = [] := by
  simp [boundaries, boundariesGo]

lemma boundaries_head (b : List Nat) (hb : b ≠ []) :
    ((boundaries b).head? = some 0 ↔ b.getD 0 0 ≠ 0) := by
  cases b with
  | nil => exact absurd rfl hb
  | cons bk rest =>
      unfold boundaries
      rw [if_neg (by simp)]
      simp only [boundariesGo]
      by_cases hbk : bk ≠ 0
      · rw [if_pos hbk]
        simp [hbk]
      · rw [if_neg hbk]
        have hne : ∀ x ∈ boundariesGo rest 1 ++ [(bk :: rest).length], x ≠ 0 := by
          intro x hx
          rcases List.mem_append.mp hx with hx1 | hx2
          · have := boundariesGo_mem rest 1 x hx1
            omega
          · have : x = (bk :: rest).length := by simpa using hx2
            simp [this]
      
        constructor
        · intro hhead
          cases hgo : (boundariesGo rest 1 ++ [(bk :: rest).length]) with
          | nil => rw [hgo] at hhead; simp at hhead
          | cons y ys =>
              rw [hgo] at hhead
              simp only [List.head?_cons, Option.some.injEq] at hhead
              have hy : y ∈ boundariesGo rest 1 ++ [(bk :: rest).length] := by
                rw [hgo]; exact List.mem_cons_self y ys
              exact absurd hhead.symm (Ne.symm (hne y hy))
        · intro hg
          simp only [ne_eq] at hbk
          simp [List.getD] at hg
          omega

/-- C1 (code bug): the spec says every `K_breakables` is total, and the
doctests of `grapheme_cluster_breakables` expect `[1, 1, 1]` for ABC, but
against the `Run` class of `uniseg/breaking.py` the function raises
`TypeError` for every non-empty string: the GB9c pass calls
`run.is_following(..., greedy=True)` while `Run.is_following` accepts only
`variable` and `noskip`, and the single-character path calls the list held
by the `breakables` property. -/
theorem grapheme_cluster_breakables_raises (incb : Char → Bool)
    (s : List Char) (hs : s ≠ []) :
    grapheme_cluster_breakables incb s = Except.error PyErr.typeError := by
  unfold grapheme_cluster_breakables
  rw [if_neg (by simpa using hs)]
  dsimp only
  split <;> rfl

/-- Witness for `grapheme_cluster_breakables_raises` at the doctest input
ABC. -/
theorem grapheme_cluster_breakables_raises_witness :
    (['A', 'B', 'C'] : List Char) ≠ [] ∧
      grapheme_cluster_breakables (fun _ => false) ['A', 'B', 'C']
        = Except.error PyErr.typeError :=
  ⟨by decide,
    grapheme_cluster_breakables_raises (fun _ => false) ['A', 'B', 'C'] (by decide)⟩

/-- C3 (code bug): `line_break_breakables` accepts the `legacy` switch but
its body never reads it, so the legacy and non-legacy runs are literally
the same computation for every input and every property table, while both
the spec and the doctest of `line_break_units` expect the two settings to
segment some input differently. -/
theorem line_break_breakables_ignores_legacy (lb_of : Char → LineBreak)
    (category : Char → String) (s : List Char) (legacy : Bool) :
    line_break_breakables lb_of category s legacy
      = line_break_breakables lb_of category s false := rfl

/-- C2 counterexample: the first action of the line-break engine is LB2,
`run.do_not_break_here()` at position 0, so the decision at position 0 is
DoNotBreak and not Break; moreover, against the `Run` of
`uniseg/breaking.py` the engine then raises (here at `set_skip_table` for
a one-character input), so `line_break_boundaries("A")` does not yield a
sequence beginning with 0. -/
theorem line_break_position0_counterexample :
    ((Run.init ['A'] (resolve_lb1_linebreak (fun _ => LineBreak.AL)
        (fun _ => "Lu"))).do_not_break_here).breakables
      = [some Breakable.DoNotBreak]
    ∧ line_break_breakables (fun _ => LineBreak.AL) (fun _ => "Lu") ['A'] false
      = Except.error PyErr.attributeError :=
  ⟨by decide, rfl⟩

/-- C4 (code bug): `uniseg.db.indic_conjunct_break` returns a boolean
(`bool(value)`), not an enum value, and the enum-returning accessor in
`uniseg/indicconjunctbreak.py` then subscripts the Enum class with that
boolean and raises `KeyError`, although its own doctest expects `Linker`
for U+094D.  The table fragment used here gives U+094D its InCB value
Linker. -/
theorem indic_conjunct_break_keyerror :
    db.indic_conjunct_break dbLinkerTable 0x94D = Except.ok true
      ∧ indic_conjunct_break dbLinkerTable 0x94D = Except.error PyErr.keyError := by
  have hidx : dbLinkerTable.index1[0x94D >>> dbLinkerTable.shift]? = some 1 := by
    show (List.replicate 2381 (0 : Nat) ++ [1])[0x94D >>> 0]? = some 1
    rw [Nat.shiftRight_zero,
      List.getElem?_append_right (by simp only [List.length_replicate]; omega)]
    simp only [List.length_replicate]
    rfl
  have hfb : db.find_break dbLinkerTable 0x94D = Except.ok 1 := by
    unfold db.find_break
    rw [if_neg (by decide)]
    rw [hidx]
    rfl
  have hincb : db.indic_conjunct_break dbLinkerTable 0x94D = Except.ok true := by
    unfold db.indic_conjunct_break
    rw [show db.col_index dbLinkerTable "InCB" = Except.ok 5 from rfl]
    simp only [Except.bind]
    rw [hfb]
    rfl
  refine ⟨hincb, ?_⟩
  unfold indic_conjunct_break
  rw [hincb]
  rfl

/-- C5 counterexample: the word engine has no undecided state - `Runner`
initialises every position of the breakable vector to 1 (Break), and its
rules overwrite unconditionally: on AB the decision at position 1 starts
as Break and the WB5 application of `do_not_break_here` changes it to
DoNotBreak. -/
theorem word_engine_overwrites_counterexample :
    (Runner.init (fun _ => WordBreak.ALETTER) ['A', 'B']).breakables = [1, 1]
      ∧ word_breakables (fun _ => false) (fun _ => WordBreak.ALETTER) ['A', 'B']
        = [1, 0] :=
  ⟨by decide, by decide⟩

/-- C9 counterexample: `getsize` reports that a stage array containing
300 needs 2-byte elements, but `main` emits every stage array with
`array.array('B', ...)`, which raises OverflowError for 300 instead of
emitting a wider array. -/
theorem stage_emission_counterexample :
    getsize [(300 : Int)] = Except.ok 2
      ∧ array_array_B [(300 : Int)] = Except.error PyErr.overflowError :=
  ⟨rfl, rfl⟩

/-- C9 as amended: `getsize` is used only in the size estimate inside
`splitbins`; the emission in `main` is hard-coded to one-byte elements,
so a stage array whose entries all fit in a byte is emitted as such and a
stage array with any entry above 255 aborts the build with OverflowError
rather than being emitted with a wider element type. -/
theorem stage_emission_amended (good bad : List Int)
    (hgood : ∀ x ∈ good, 0 ≤ x ∧ x < 256) (hbad : ∃ x ∈ bad, 256 ≤ x) :
    array_array_B good = Except.ok good
      ∧ array_array_B bad = Except.error PyErr.overflowError := by
  constructor
  · unfold array_array_B
    rw [if_pos]
    rw [List.all_eq_true]
    intro x hx
    exact decide_eq_true (hgood x hx)
  · unfold array_array_B
    rw [if_neg]
    intro hall
    obtain ⟨x, hx, h256⟩ := hbad
    have := List.all_eq_true.mp hall x hx
    rw [decide_eq_true_eq] at this
    omega

/-- Witness for `stage_emission_amended` at concrete stage arrays. -/
theorem stage_emission_amended_witness :
    (∀ x ∈ ([0, 255] : List Int), 0 ≤ x ∧ x < 256)
      ∧ (∃ x ∈ ([301] : List Int), 256 ≤ x)
      ∧ (array_array_B [0, 255] = Except.ok [0, 255]
          ∧ array_array_B [301] = Except.error PyErr.overflowError) :=
  ⟨by decide, by decide, stage_emission_amended [0, 255] [301] (by decide) (by decide)⟩

/-- C8: property lookup never throws for out-of-range input: for any
table, `_find_break` returns row index 0 for every code point above
`sys.maxunicode`, and the accessors turn an empty table value into the
Other / XX default via the `or` fallback rather than raising. -/
theorem find_break_default_row (t : db.Lookups) (cp cp2 k1 k2 k3 k4 i : Nat)
    (row : List String)
    (hcp : db.maxunicode < cp)
    (hfb : db.find_break t cp2 = Except.ok i)
    (hrow : t.values[i]? = some row)
    (hgcb : t.columns.indexOf? "GraphemeClusterBreak" = some k1)
    (hlb : t.columns.indexOf? "LineBreak" = some k2)
    (hwb : t.columns.indexOf? "WordBreak" = some k3)
    (hsb : t.columns.indexOf? "SentenceBreak" = some k4)
    (hk1 : row[k1]? = some "")
    (hk2 : row[k2]? = some "")
    (hk3 : row[k3]? = some "")
    (hk4 : row[k4]? = some "") :
    db.find_break t cp = Except.ok 0
      ∧ db.grapheme_cluster_break t cp2 = Except.ok "Other"
      ∧ db.word_break t cp2 = Except.ok "Other"
      ∧ db.sentence_break t cp2 = Except.ok "Other"
      ∧ db.line_break t cp2 = Except.ok "XX" := by
  refine ⟨?_, ?_, ?_, ?_, ?_⟩
  · unfold db.find_break
    rw [if_pos hcp]
  · unfold db.grapheme_cluster_break db.col_index
    rw [hgcb]
    unfold db.get_value_or
    rw [hfb]
    simp only [Except.bind, hrow, hk1]
    rfl
  · unfold db.word_break db.col_index
    rw [hwb]
    unfold db.get_value_or
    rw [hfb]
    simp only [Except.bind, hrow, hk3]
    rfl
  · unfold db.sentence_break db.col_index
    rw [hsb]
    unfold db.get_value_or
    rw [hfb]
    simp only [Except.bind, hrow, hk4]
    rfl
  · unfold db.line_break db.col_index
    rw [hlb]
    unfold db.get_value_or
    rw [hfb]
    simp only [Except.bind, hrow, hk2]
    rfl

/-- Witness for `find_break_default_row` on a four-column table whose only
row is empty. -/
theorem find_break_default_row_witness :
    db.maxunicode < 0x110000
      ∧ db.find_break
          ⟨["GraphemeClusterBreak", "WordBreak", "SentenceBreak", "LineBreak"],
            [["", "", "", ""]], [0], [0], 0⟩ 0
          = Except.ok 0
      ∧ (db.find_break
            ⟨["GraphemeClusterBreak", "WordBreak", "SentenceBreak", "LineBreak"],
              [["", "", "", ""]], [0], [0], 0⟩ 0x110000
            = Except.ok 0
          ∧ db.grapheme_cluster_break
              ⟨["GraphemeClusterBreak", "WordBreak", "SentenceBreak", "LineBreak"],
                [["", "", "", ""]], [0], [0], 0⟩ 0
            = Except.ok "Other"
          ∧ db.word_break
              ⟨["GraphemeClusterBreak", "WordBreak", "SentenceBreak", "LineBreak"],
                [["", "", "", ""]], [0], [0], 0⟩ 0
            = Except.ok "Other"
          ∧ db.sentence_break
              ⟨["GraphemeClusterBreak", "WordBreak", "SentenceBreak", "LineBreak"],
                [["", "", "", ""]], [0], [0], 0⟩ 0
            = Except.ok "Other"
          ∧ db.line_break
              ⟨["GraphemeClusterBreak", "WordBreak", "SentenceBreak", "LineBreak"],
                [["", "", "", ""]], [0], [0], 0⟩ 0
            = Except.ok "XX") :=
  ⟨by decide, rfl,
    find_break_default_row
      ⟨["GraphemeClusterBreak", "WordBreak", "SentenceBreak", "LineBreak"],
        [["", "", "", ""]], [0], [0], 0⟩
      0x110000 0 0 3 1 2 0 ["", "", "", ""]
      (by decide) rfl rfl rfl rfl rfl rfl rfl rfl rfl rfl⟩

lemma getD_set_ne_helper {γ : Type} (l : List γ) (p i : Nat) (x d : γ)
    (h : p ≠ i) : (l.set p x).getD i d = l.getD i d := by
  rw [List.getD_eq_getD_get?, List.getD_eq_getD_get?, List.get?_eq_getElem?,
    List.get?_eq_getElem?, List.getElem?_set_ne h]

lemma getD_eq_of_getElem? {γ : Type} (l : List γ) (i : Nat) (a d : γ)
    (h : l[i]? = some a) : l.getD i d = a := by
  rw [List.getD_eq_getD_get?, List.get?_eq_getElem?, h]
  rfl

/-- C5 as amended: in the `Run`-based engines decisions really are
write-once - `break_here` and `do_not_break_here` assign only when the
position is still undecided, and `set_default` replaces exactly the
undecided positions - while the word engine has no undecided state at
all: `Runner` pre-sets every decision to 1 (Break) and its `break_here`
and `do_not_break_here` overwrite the current value unconditionally. -/
theorem write_once_amended {α : Type} (r : Run α) (q : Runner) (i : Nat)
    (v d : Breakable)
    (hset : r.breakables.getD i none = some v) :
    (r.break_here.breakables.getD i none = some v
      ∧ r.do_not_break_here.breakables.getD i none = some v
      ∧ (r.set_default d).breakables.getD i none = some v)
    ∧ (∀ j, j < r.breakables.length → r.breakables.getD j none = none →
        (r.set_default d).breakables.getD j none = some d)
    ∧ q.break_here.breakables = q.breakables.set q.i 1
    ∧ q.do_not_break_here.breakables = q.breakables.set q.i 0 := by
  have hlt : i < r.breakables.length := by
    by_contra hge
    rw [List.getD_eq_default _ _ (by omega)] at hset
    exact Option.noConfusion hset
  have hget : r.breakables[i]? = some (some v) := by
    rw [List.getElem?_eq_getElem hlt]
    rw [List.getD_eq_getElem _ _ hlt] at hset
    rw [hset]
  refine ⟨⟨?_, ?_, ?_⟩, ?_, rfl, rfl⟩
  · unfold Run.break_here
    split
    · rename_i hcond
      have hne : r.position ≠ i := by
        intro he
        rw [he, hget] at hcond
        simp at hcond
      show (r.breakables.set r.position (some Breakable.Break)).getD i none = some v
      rw [getD_set_ne_helper r.breakables r.position i _ _ hne]
      exact hset
    · exact hset
  · unfold Run.do_not_break_here
    split
    · rename_i hcond
      have hne : r.position ≠ i := by
        intro he
        rw [he, hget] at hcond
        simp at hcond
      show (r.breakables.set r.position (some Breakable.DoNotBreak)).getD i none = some v
      rw [getD_set_ne_helper r.breakables r.position i _ _ hne]
      exact hset
    · exact hset
  · unfold Run.set_default
    refine getD_eq_of_getElem? _ _ _ _ ?_
    simp only [List.getElem?_map, hget, Option.map_some']
  · intro j hj hnone
    unfold Run.set_default
    refine getD_eq_of_getElem? _ _ _ _ ?_
    have hgj : r.breakables[j]? = some none := by
      rw [List.getElem?_eq_getElem hj]
      rw [List.getD_eq_getElem _ _ hj] at hnone
      rw [hnone]
    simp only [List.getElem?_map, hgj, Option.map_some']

/-- Witness for `write_once_amended` at a concrete decided position. -/
theorem write_once_amended_witness :
    ((Run.init ['A'] (fun _ => LineBreak.AL)).do_not_break_here).breakables.getD 0 none
        = some Breakable.DoNotBreak
      ∧ ((((Run.init ['A'] (fun _ => LineBreak.AL)).do_not_break_here).break_here.breakables.getD 0 none
            = some Breakable.DoNotBreak
          ∧ ((Run.init ['A'] (fun _ => LineBreak.AL)).do_not_break_here).do_not_break_here.breakables.getD 0 none
            = some Breakable.DoNotBreak
          ∧ (((Run.init ['A'] (fun _ => LineBreak.AL)).do_not_break_here).set_default Breakable.Break).breakables.getD 0 none
            = some Breakable.DoNotBreak)
        ∧ (∀ j, j < ((Run.init ['A'] (fun _ => LineBreak.AL)).do_not_break_here).breakables.length →
            ((Run.init ['A'] (fun _ => LineBreak.AL)).do_not_break_here).breakables.getD j none = none →
            (((Run.init ['A'] (fun _ => LineBreak.AL)).do_not_break_here).set_default Breakable.Break).breakables.getD j none
              = some Breakable.Break)
        ∧ (Runner.init (fun _ => WordBreak.OTHER) ['A']).break_here.breakables
            = (Runner.init (fun _ => WordBreak.OTHER) ['A']).breakables.set
                (Runner.init (fun _ => WordBreak.OTHER) ['A']).i 1
        ∧ (Runner.init (fun _ => WordBreak.OTHER) ['A']).do_not_break_here.breakables
            = (Runner.init (fun _ => WordBreak.OTHER) ['A']).breakables.set
                (Runner.init (fun _ => WordBreak.OTHER) ['A']).i 0) :=
  ⟨by decide,
    write_once_amended ((Run.init ['A'] (fun _ => LineBreak.AL)).do_not_break_here)
      (Runner.init (fun _ => WordBreak.OTHER) ['A']) 0
      Breakable.DoNotBreak Breakable.Break (by decide)⟩

lemma runnerSkipFwd_ge (values skip : List WordBreak) :
    ∀ (fuel i : Nat), i ≤ runnerSkipFwd values skip i fuel := by
  intro fuel
  induction fuel with
  | zero => intro i; exact Nat.le_refl i
  | succ fuel ih =>
      intro i
      unfold runnerSkipFwd
      cases hv : values[i]? with
      | none => exact Nat.le_refl i
      | some v =>
          show i ≤ if v ∈ skip then runnerSkipFwd values skip (i + 1) fuel else i
          by_cases hm : v ∈ skip
          · rw [if_pos hm]
            exact Nat.le_trans (Nat.le_succ i) (ih (i + 1))
          · rw [if_neg hm]

lemma runner_walk_i_ge (r : Runner) : 1 ≤ (r.walk).1.i := by
  show 1 ≤ runnerSkipFwd r.values r.skip (r.i + 1) (r.values.length + 1)
  have h := runnerSkipFwd_ge r.values r.skip (r.values.length + 1) (r.i + 1)
  omega

lemma runner_walk_breakables (r : Runner) : (r.walk).1.breakables = r.breakables := rfl

lemma runner_write_preserves0 (r : Runner) (h : 1 ≤ r.i) :
    r.break_here.breakables.getD 0 1 = r.breakables.getD 0 1
      ∧ r.do_not_break_here.breakables.getD 0 1 = r.breakables.getD 0 1 := by
  constructor
  · show (r.breakables.set r.i 1).getD 0 1 = r.breakables.getD 0 1
    exact getD_set_ne_helper r.breakables r.i 0 1 1 (by omega)
  · show (r.breakables.set r.i 0).getD 0 1 = r.breakables.getD 0 1
    exact getD_set_ne_helper r.breakables r.i 0 0 1 (by omega)

set_option maxHeartbeats 2000000 in
lemma wbPass1Body_preserves0 (ep : Char → Bool) (r : Runner) (h : 1 ≤ r.i) :
    (wbPass1Body ep r).breakables.getD 0 1 = r.breakables.getD 0 1 := by
  unfold wbPass1Body
  repeat' split
  all_goals
    first
      | exact (runner_write_preserves0 r h).1
      | exact (runner_write_preserves0 r h).2
      | rfl

lemma wbPass2Body_preserves0 (r : Runner) (h : 1 ≤ r.i) :
    (wbPass2Body r).breakables.getD 0 1 = r.breakables.getD 0 1 := by
  unfold wbPass2Body
  by_cases h1 : inTuple r.prev AHLetterTuple = true ∧ inTuple r.curr AHLetterTuple = true
  · rw [if_pos h1]
    exact (runner_write_preserves0 r h).2
  · rw [if_neg h1]
    by_cases h2 : inTuple r.prev AHLetterTuple = true ∧ inTuple r.curr (WordBreak.MIDLETTER :: MidNumLetQTuple) = true ∧ inTuple r.next AHLetterTuple = true
    · rw [if_pos h2]
      exact (runner_write_preserves0 r h).2
    · rw [if_neg h2]
      by_cases h3 : inTuple (r.value (-2)) AHLetterTuple = true ∧ inTuple r.prev (WordBreak.MIDLETTER :: MidNumLetQTuple) = true ∧ inTuple r.curr AHLetterTuple = true
      · rw [if_pos h3]
        exact (runner_write_preserves0 r h).2
      · rw [if_neg h3]
        by_cases h4 : r.prev = some WordBreak.HEBREW_LETTER ∧ r.curr = some WordBreak.SINGLE_QUOTE
        · rw [if_pos h4]
          exact (runner_write_preserves0 r h).2
        · rw [if_neg h4]
          by_cases h5 : r.prev = some WordBreak.HEBREW_LETTER ∧ r.curr = some WordBreak.DOUBLE_QUOTE ∧ r.next = some WordBreak.HEBREW_LETTER
          · rw [if_pos h5]
            exact (runner_write_preserves0 r h).2
          · rw [if_neg h5]
            by_cases h6 : r.value (-2) = some WordBreak.HEBREW_LETTER ∧ r.prev = some WordBreak.DOUBLE_QUOTE ∧ r.curr = some WordBreak.HEBREW_LETTER
            · rw [if_pos h6]
              exact (runner_write_preserves0 r h).2
            · rw [if_neg h6]
              by_cases h7 : r.prev = some WordBreak.NUMERIC ∧ r.curr = some WordBreak.NUMERIC
              · rw [if_pos h7]
                exact (runner_write_preserves0 r h).2
              · rw [if_neg h7]
                by_cases h8 : inTuple r.prev AHLetterTuple = true ∧ r.curr = some WordBreak.NUMERIC
                · rw [if_pos h8]
                  exact (runner_write_preserves0 r h).2
                · rw [if_neg h8]
                  by_cases h9 : r.prev = some WordBreak.NUMERIC ∧ inTuple r.curr AHLetterTuple = true
                  · rw [if_pos h9]
                    exact (runner_write_preserves0 r h).2
                  · rw [if_neg h9]
                    by_cases h10 : r.value (-2) = some WordBreak.NUMERIC ∧ inTuple r.prev (WordBreak.MIDNUM :: MidNumLetQTuple) = true ∧ r.curr = some WordBreak.NUMERIC
                    · rw [if_pos h10]
                      exact (runner_write_preserves0 r h).2
                    · rw [if_neg h10]
                      by_cases h11 : r.prev = some WordBreak.NUMERIC ∧ inTuple r.curr (WordBreak.MIDNUM :: MidNumLetQTuple) = true ∧ r.next = some WordBreak.NUMERIC
                      · rw [if_pos h11]
                        exact (runner_write_preserves0 r h).2
                      · rw [if_neg h11]
                        by_cases h12 : r.prev = some WordBreak.KATAKANA ∧ r.curr = some WordBreak.KATAKANA
                        · rw [if_pos h12]
                          exact (runner_write_preserves0 r h).2
                        · rw [if_neg h12]
                          by_cases h13 : inTuple r.prev (AHLetterTuple ++ ([WordBreak.NUMERIC, WordBreak.KATAKANA, WordBreak.EXTENDNUMLET] : List WordBreak)) = true ∧ r.curr = some WordBreak.EXTENDNUMLET
                          · rw [if_pos h13]
                            exact (runner_write_preserves0 r h).2
                          · rw [if_neg h13]
                            by_cases h14 : r.prev = some WordBreak.EXTENDNUMLET ∧ inTuple r.curr (AHLetterTuple ++ ([WordBreak.NUMERIC, WordBreak.KATAKANA] : List WordBreak)) = true
                            · rw [if_pos h14]
                              exact (runner_write_preserves0 r h).2
                            · rw [if_neg h14]

lemma wbLoop_preserves0 (body : Runner → Runner)
    (hbody : ∀ r : Runner, 1 ≤ r.i →
      (body r).breakables.getD 0 1 = r.breakables.getD 0 1) :
    ∀ (fuel : Nat) (r : Runner),
      (wbLoop body r fuel).breakables.getD 0 1 = r.breakables.getD 0 1 := by
  intro fuel
  induction fuel with
  | zero => intro r; rfl
  | succ fuel ih =>
      intro r
      unfold wbLoop
      by_cases hc : (r.walk).2
      · rw [if_pos hc]
        rw [ih (body (r.walk).1)]
        rw [hbody (r.walk).1 (runner_walk_i_ge r)]
        rw [runner_walk_breakables r]
      · rw [if_neg hc]
        rw [runner_walk_breakables r]

lemma wbSeekRI_breakables :
    ∀ (fuel : Nat) (r : Runner), (wbSeekRI r fuel).breakables = r.breakables := by
  intro fuel
  induction fuel with
  | zero => intro r; rfl
  | succ fuel ih =>
      intro r
      unfold wbSeekRI
      by_cases hc : r.curr ≠ some WordBreak.REGIONAL_INDICATOR
      · rw [if_pos hc]
        by_cases hw : (r.walk).2
        · rw [if_pos hw, ih (r.walk).1, runner_walk_breakables r]
        · rw [if_neg hw, runner_walk_breakables r]
      · rw [if_neg hc]

lemma wbSeekRI_i_ge :
    ∀ (fuel : Nat) (r : Runner), r.i ≤ (wbSeekRI r fuel).i := by
  intro fuel
  induction fuel with
  | zero => intro r; exact Nat.le_refl _
  | succ fuel ih =>
      intro r
      unfold wbSeekRI
      by_cases hc : r.curr ≠ some WordBreak.REGIONAL_INDICATOR
      · rw [if_pos hc]
        by_cases hw : (r.walk).2
        · rw [if_pos hw]
          refine Nat.le_trans ?_ (ih (r.walk).1)
          show r.i ≤ runnerSkipFwd r.values r.skip (r.i + 1) (r.values.length + 1)
          have := runnerSkipFwd_ge r.values r.skip (r.values.length + 1) (r.i + 1)
          omega
        · rw [if_neg hw]
          show r.i ≤ runnerSkipFwd r.values r.skip (r.i + 1) (r.values.length + 1)
          have := runnerSkipFwd_ge r.values r.skip (r.values.length + 1) (r.i + 1)
          omega
      · rw [if_neg hc]

lemma wbPairRI_preserves0 :
    ∀ (fuel : Nat) (r : Runner), 1 ≤ r.i →
      (wbPairRI r fuel).breakables.getD 0 1 = r.breakables.getD 0 1 := by
  intro fuel
  induction fuel with
  | zero => intro r _; rfl
  | succ fuel ih =>
      intro r hr
      unfold wbPairRI
      by_cases hc : r.prev = some WordBreak.REGIONAL_INDICATOR
          ∧ r.curr = some WordBreak.REGIONAL_INDICATOR
      · rw [if_pos hc]
        have h1 : r.do_not_break_here.breakables.getD 0 1 = r.breakables.getD 0 1 :=
          (runner_write_preserves0 r hr).2
        by_cases hw : (r.do_not_break_here.walk).2
        · rw [if_pos hw]
          by_cases hw2 : ((r.do_not_break_here.walk).1.walk).2
          · rw [if_pos hw2]
            rw [ih _ (runner_walk_i_ge (r.do_not_break_here.walk).1)]
            rw [runner_walk_breakables, runner_walk_breakables, h1]
          · rw [if_neg hw2]
            rw [runner_walk_breakables, runner_walk_breakables, h1]
        · rw [if_neg hw]
          rw [runner_walk_breakables, h1]
      · rw [if_neg hc]

lemma wbOuterRI_preserves0 :
    ∀ (fuel : Nat) (r : Runner),
      (wbOuterRI r fuel).breakables.getD 0 1 = r.breakables.getD 0 1 := by
  intro fuel
  induction fuel with
  | zero => intro r; rfl
  | succ fuel ih =>
      intro r
      unfold wbOuterRI
      by_cases hw : ((wbSeekRI r (r.values.length + 1)).walk).2
      · rw [if_pos hw]
        rw [ih]
        rw [wbPairRI_preserves0 _ _ (runner_walk_i_ge (wbSeekRI r (r.values.length + 1)))]
        rw [runner_walk_breakables, wbSeekRI_breakables]
      · rw [if_neg hw]
        rw [runner_walk_breakables, wbSeekRI_breakables]

/-- C2 as amended: for every breakable vector, `boundaries` is strictly
increasing, ends with the vector length for non-empty input, yields
nothing for empty input, and begins with 0 exactly when the decision at
position 0 is a break; the word engine leaves position 0 at its initial
Break, and the sentence engine (SB1, `run.break_here()` at position 0)
writes Break there, but the line engine (LB2, `run.do_not_break_here()`
at position 0) writes DoNotBreak at position 0, so its boundary stream
does not begin with 0. -/
theorem boundaries_shape_amended {α : Type} (b : List Nat) (s : List Char)
    (g : Char → α) (ep : Char → Bool) (wb : Char → WordBreak)
    (hb : b ≠ []) (hs : s ≠ []) :
    (boundaries b).Sorted (· < ·)
      ∧ (boundaries b).getLast? = some b.length
      ∧ boundaries [] = []
      ∧ ((boundaries b).head? = some 0 ↔ b.getD 0 0 ≠ 0)
      ∧ (word_breakables ep wb s).getD 0 1 = 1
      ∧ ((Run.init s g).do_not_break_here).breakables.getD 0 none
          = some Breakable.DoNotBreak
      ∧ ((Run.init s g).break_here).breakables.getD 0 none
          = some Breakable.Break := by
  obtain ⟨c, cs, rfl⟩ : ∃ c cs, s = c :: cs := by
    cases s with
    | nil => exact absurd rfl hs
    | cons c cs => exact ⟨c, cs, rfl⟩
  refine ⟨boundaries_sorted b, boundaries_getLast b hb, boundaries_empty,
    boundaries_head b hb, ?_, ?_, ?_⟩
  · unfold word_breakables
    rw [if_neg (by simp)]
    rw [wbOuterRI_preserves0]
    show (wbLoop wbPass2Body _ _).breakables.getD 0 1 = 1
    rw [wbLoop_preserves0 wbPass2Body wbPass2Body_preserves0]
    show (wbLoop (wbPass1Body ep) _ _).breakables.getD 0 1 = 1
    rw [wbLoop_preserves0 (wbPass1Body ep) (wbPass1Body_preserves0 ep)]
    rfl
  · unfold Run.do_not_break_here
    rw [if_pos ⟨List.cons_ne_nil c cs, by simp [Run.init]⟩]
    simp [Run.init]
  · unfold Run.break_here
    rw [if_pos ⟨List.cons_ne_nil c cs, by simp [Run.init]⟩]
    simp [Run.init]

/-- Witness for `boundaries_shape_amended` at concrete inputs. -/
theorem boundaries_shape_amended_witness :
    ([1, 0] : List Nat) ≠ [] ∧ (['A'] : List Char) ≠ []
      ∧ ((boundaries [1, 0]).Sorted (· < ·)
          ∧ (boundaries [1, 0]).getLast? = some ([1, 0] : List Nat).length
          ∧ boundaries [] = []
          ∧ ((boundaries [1, 0]).head? = some 0 ↔ ([1, 0] : List Nat).getD 0 0 ≠ 0)
          ∧ (word_breakables (fun _ => false) (fun _ => WordBreak.OTHER) ['A']).getD 0 1 = 1
          ∧ ((Run.init ['A'] (fun _ => (0 : Nat))).do_not_break_here).breakables.getD 0 none
              = some Breakable.DoNotBreak
          ∧ ((Run.init ['A'] (fun _ => (0 : Nat))).break_here).breakables.getD 0 none
              = some Breakable.Break) :=
  ⟨by decide, by decide,
    boundaries_shape_amended [1, 0] ['A'] (fun _ => (0 : Nat)) (fun _ => false)
      (fun _ => WordBreak.OTHER) (by decide) (by decide)⟩

lemma chunksOf_nil (size : Nat) : chunksOf size [] = [] := by
  unfold chunksOf
  simp

lemma chunksOf_eq_cons (size : Nat) (l : List Int) (hl : l ≠ []) (hs : size ≠ 0) :
    chunksOf size l = l.take size :: chunksOf size (l.drop size) := by
  conv_lhs => unfold chunksOf
  rw [if_neg (show ¬(l = [] ∨ size = 0) by
    intro hcon
    rcases hcon with hcon | hcon
    · exact hl hcon
    · exact hs hcon)]

lemma chunksOf_mem (size : Nat) (hs : 0 < size) :
    ∀ (n : Nat) (l : List Int), l.length ≤ n →
      ∀ c ∈ chunksOf size l, c ≠ [] ∧ c.length ≤ size := by
  intro n
  induction n with
  | zero =>
      intro l hl c hc
      have : l = [] := by
        cases l with
        | nil => rfl
        | cons a as => simp at hl
      subst this
      rw [chunksOf_nil] at hc
      simp at hc
  | succ n ih =>
      intro l hl c hc
      by_cases hnil : l = []
      · subst hnil
        rw [chunksOf_nil] at hc
        simp at hc
      · rw [chunksOf_eq_cons size l hnil (by omega)] at hc
        rcases List.mem_cons.mp hc with hc0 | hc1
        · subst hc0
          constructor
          · have hpos : 0 < l.length := List.length_pos.mpr hnil
            have hlen : 0 < (l.take size).length := by
              simp only [List.length_take]
              omega
            exact List.length_pos.mp hlen
          · simp [List.length_take]
        · refine ih (l.drop size) ?_ c hc1
          have hpos : 0 < l.length := List.length_pos.mpr hnil
          simp only [List.length_drop]
          omega

lemma chunksOf_full (size : Nat) (hs : 0 < size) :
    ∀ (n : Nat) (l : List Int), l.length ≤ n →
      ∀ k, k + 1 < (chunksOf size l).length →
        ((chunksOf size l).getD k []).length = size := by
  intro n
  induction n with
  | zero =>
      intro l hl k hk
      have : l = [] := by
        cases l with
        | nil => rfl
        | cons a as => simp at hl
      subst this
      rw [chunksOf_nil] at hk
      simp at hk
  | succ n ih =>
      intro l hl k hk
      by_cases hnil : l = []
      · subst hnil
        rw [chunksOf_nil] at hk
        simp at hk
      · rw [chunksOf_eq_cons size l hnil (by omega)] at hk ⊢
        cases k with
        | zero =>
            simp only [List.getD_cons_zero, List.length_take]
            simp only [List.length_cons] at hk
            have hrest : chunksOf size (l.drop size) ≠ [] := by
              intro hcon
              rw [hcon] at hk
              simp at hk
            have hdrop : l.drop size ≠ [] := by
              intro hcon
              rw [hcon, chunksOf_nil] at hrest
              exact hrest rfl
            have : size < l.length := by
              by_contra hge
              push_neg at hge
              exact hdrop (List.drop_eq_nil_of_le hge)
            omega
        | succ k =>
            simp only [List.getD_cons_succ]
            refine ih (l.drop size) ?_ k ?_
            · have hpos : 0 < l.length := List.length_pos.mpr hnil
              simp only [List.length_drop]
              omega
            · simp only [List.length_cons] at hk
              omega

lemma chunksOf_length_le (size : Nat) (hs : 0 < size) :
    ∀ (n : Nat) (l : List Int), l.length ≤ n →
      (chunksOf size l).length ≤ l.length := by
  intro n
  induction n with
  | zero =>
      intro l hl
      have : l = [] := by
        cases l with
        | nil => rfl
        | cons a as => simp at hl
      subst this
      rw [chunksOf_nil]
      exact Nat.le_refl _
  | succ n ih =>
      intro l hl
      by_cases hnil : l = []
      · subst hnil
        rw [chunksOf_nil]
        exact Nat.le_refl _
      · rw [chunksOf_eq_cons size l hnil (by omega)]
        have hpos : 0 < l.length := List.length_pos.mpr hnil
        have hdl : (l.drop size).length ≤ n := by
          simp only [List.length_drop]
          omega
        have := ih (l.drop size) hdl
        simp only [List.length_cons, List.length_drop] at this ⊢
        omega

lemma chunksOf_sum (size : Nat) (hs : 0 < size) :
    ∀ (n : Nat) (l : List Int), l.length ≤ n →
      ((chunksOf size l).map List.length).sum = l.length := by
  intro n
  induction n with
  | zero =>
      intro l hl
      have : l = [] := by
        cases l with
        | nil => rfl
        | cons a as => simp at hl
      subst this
      rw [chunksOf_nil]
      simp
  | succ n ih =>
      intro l hl
      by_cases hnil : l = []
      · subst hnil
        rw [chunksOf_nil]
        simp
      · rw [chunksOf_eq_cons size l hnil (by omega)]
        have hpos : 0 < l.length := List.length_pos.mpr hnil
        have hdl : (l.drop size).length ≤ n := by
          simp only [List.length_drop]
          omega
        have hrec := ih (l.drop size) hdl
        simp only [List.map_cons, List.sum_cons, hrec, List.length_take,
          List.length_drop]
        omega

lemma chunksOf_index (size : Nat) (hs : 0 < size) :
    ∀ (n : Nat) (l : List Int) (i : Nat), l.length ≤ n → i < l.length →
      ∃ ck : List Int, (chunksOf size l)[i / size]? = some ck
        ∧ ck[i % size]? = l[i]? ∧ i % size < ck.length := by
  intro n
  induction n with
  | zero =>
      intro l i hl hi
      omega
  | succ n ih =>
      intro l i hl hi
      have hnil : l ≠ [] := by
        intro hcon
        subst hcon
        simp at hi
      rw [chunksOf_eq_cons size l hnil (by omega)]
      by_cases hlt : i < size
      · refine ⟨l.take size, ?_, ?_, ?_⟩
        · have : i / size = 0 := Nat.div_eq_of_lt hlt
          rw [this]
          exact List.getElem?_cons_zero
        · have : i % size = i := Nat.mod_eq_of_lt hlt
          rw [this, List.getElem?_take]
          simp [hlt]
        · have : i % size = i := Nat.mod_eq_of_lt hlt
          rw [this]
          simp only [List.length_take]
          omega
      · push_neg at hlt
        have hdiv : i / size = (i - size) / size + 1 :=
          Nat.div_eq_sub_div hs hlt
        have hmod : i % size = (i - size) % size := Nat.mod_eq_sub_mod hlt
        have hdl : (l.drop size).length ≤ n := by
          have hpos : 0 < l.length := List.length_pos.mpr hnil
          simp only [List.length_drop]
          omega
        have hid : i - size < (l.drop size).length := by
          simp only [List.length_drop]
          omega
        obtain ⟨c, hc1, hc2, hc3⟩ := ih (l.drop size) (i - size) hdl hid
        refine ⟨c, ?_, ?_, ?_⟩
        · rw [hdiv, List.getElem?_cons_succ]
          exact hc1
        · rw [hmod, hc2, List.getElem?_drop]
          congr 1
          omega
        · rw [hmod]
          exact hc3

lemma assocFind_mem :
    ∀ (cache : List (List Int × Nat)) (key : List Int) (v : Nat),
      assocFind cache key = some v → (key, v) ∈ cache := by
  intro cache
  induction cache with
  | nil =>
      intro key v h
      simp [assocFind] at h
  | cons p rest ih =>
      intro key v h
      match p with
      | (k, w) =>
          unfold assocFind at h
          by_cases hk : k = key
          · rw [if_pos hk] at h
            have hv : w = v := by
              injection h
            subst hk
            subst hv
            exact List.mem_cons_self _ _
          · rw [if_neg hk] at h
            exact List.mem_cons_of_mem _ (ih key v h)

lemma shiftRight_shiftLeft_of_mod (n s : Nat) (h : n % 2 ^ s = 0) :
    (n >>> s) <<< s = n := by
  rw [Nat.shiftRight_eq_div_pow, Nat.shiftLeft_eq]
  exact Nat.div_mul_cancel (Nat.dvd_of_mod_eq_zero h)

lemma getsize_ok (data : List Int) (h : data ≠ []) :
    ∃ g, getsize data = Except.ok g ∧ 1 ≤ g ∧ g ≤ 4 := by
  cases hm : data.max? with
  | none =>
      rw [List.max?_eq_none_iff] at hm
      exact absurd hm h
  | some m =>
      unfold getsize
      rw [hm]
      by_cases h1 : m < 0x100
      · refine ⟨1, ?_, by omega, by omega⟩
        show Except.ok (if m < 0x100 then 1 else if m < 0x10000 then 2 else 4)
          = Except.ok 1
        rw [if_pos h1]
      · by_cases h2 : m < 0x10000
        · refine ⟨2, ?_, by omega, by omega⟩
          show Except.ok (if m < 0x100 then 1 else if m < 0x10000 then 2 else 4)
            = Except.ok 2
          rw [if_neg h1, if_pos h2]
        · refine ⟨4, ?_, by omega, by omega⟩
          show Except.ok (if m < 0x100 then 1 else if m < 0x10000 then 2 else 4)
            = Except.ok 4
          rw [if_neg h1, if_neg h2]

lemma buildGo_spec (shift : Nat) :
    ∀ (cs : List (List Int)) (t1 : List Nat) (t2 : List Int)
      (cache : List (List Int × Nat)),
      (∀ c ∈ cs, c ≠ [] ∧ c.length ≤ 2 ^ shift) →
      (∀ k, k + 1 < cs.length → (cs.getD k []).length = 2 ^ shift) →
      t2.length % 2 ^ shift = 0 →
      (∀ p ∈ cache, p.2 % 2 ^ shift = 0 ∧ p.2 + p.1.length ≤ t2.length ∧
        ∀ off, off < p.1.length → t2[p.2 + off]? = p.1[off]?) →
      ∃ app ext,
        (buildGo shift cs t1 t2 cache).1 = t1 ++ app
        ∧ app.length = cs.length
        ∧ (buildGo shift cs t1 t2 cache).2 = t2 ++ ext
        ∧ ext.length ≤ (cs.map List.length).sum
        ∧ ∀ k, k < cs.length → ∀ off, off < (cs.getD k []).length →
            (app.getD k 0 <<< shift) + off < (buildGo shift cs t1 t2 cache).2.length
            ∧ (buildGo shift cs t1 t2 cache).2[(app.getD k 0 <<< shift) + off]?
                = (cs.getD k [])[off]? := by
  intro cs
  induction cs with
  | nil =>
      intro t1 t2 cache _ _ _ _
      refine ⟨[], [], by simp [buildGo], by simp, by simp [buildGo], by simp, ?_⟩
      intro k hk
      simp at hk
  | cons bin rest ih =>
      intro t1 t2 cache hgood1 hgood2 hlen hcache
      have hgood1r : ∀ c ∈ rest, c ≠ [] ∧ c.length ≤ 2 ^ shift :=
        fun c hc => hgood1 c (List.mem_cons_of_mem bin hc)
      have hgood2r : ∀ k, k + 1 < rest.length → (rest.getD k []).length = 2 ^ shift := by
        intro k hk
        have := hgood2 (k + 1) (by simp only [List.length_cons]; omega)
        simpa [List.getD_cons_succ] using this
      cases hfind : assocFind cache bin with
      | some index =>
          have hmem := assocFind_mem cache bin index hfind
          have hfact := hcache (bin, index) hmem
          have hmod : index % 2 ^ shift = 0 := hfact.1
          have hbound : index + bin.length ≤ t2.length := hfact.2.1
          have hext : ∀ off, off < bin.length → t2[index + off]? = bin[off]? :=
            hfact.2.2
          have heq : buildGo shift (bin :: rest) t1 t2 cache
              = buildGo shift rest (t1 ++ [index >>> shift]) t2 cache := by
            conv_lhs => unfold buildGo
            rw [hfind]
          obtain ⟨app, ext, ha1, ha2, ha3, ha4, ha5⟩ :=
            ih (t1 ++ [index >>> shift]) t2 cache hgood1r hgood2r hlen hcache
          refine ⟨(index >>> shift) :: app, ext, ?_, ?_, ?_, ?_, ?_⟩
          · rw [heq, ha1, List.append_assoc]
            rfl
          · simp [ha2]
          · rw [heq, ha3]
          · refine Nat.le_trans ha4 ?_
            simp only [List.map_cons, List.sum_cons]
            omega
          · intro k hk off hoff
            cases k with
            | zero =>
                simp only [List.getD_cons_zero] at hoff ⊢
                rw [shiftRight_shiftLeft_of_mod index shift hmod]
                rw [heq, ha3]
                constructor
                · simp only [List.length_append]
                  omega
                · rw [List.getElem?_append_left (by omega)]
                  exact hext off hoff
            | succ k =>
                simp only [List.getD_cons_succ] at hoff ⊢
                have hk2 : k < rest.length := by
                  simp only [List.length_cons] at hk
                  omega
                have := ha5 k hk2 off hoff
                rw [heq]
                exact this
      | none =>
          have heq : buildGo shift (bin :: rest) t1 t2 cache
              = buildGo shift rest (t1 ++ [t2.length >>> shift]) (t2 ++ bin)
                  (cache ++ [(bin, t2.length)]) := by
            conv_lhs => unfold buildGo
            rw [hfind]
          cases rest with
          | nil =>
              have hoff0 : ∀ off, off < bin.length →
                  (t2 ++ bin)[t2.length + off]? = bin[off]? := by
                intro off _
                rw [List.getElem?_append_right (by omega)]
                congr 1
                omega
              refine ⟨[t2.length >>> shift], bin, ?_, ?_, ?_, ?_, ?_⟩
              · rw [heq]
                show t1 ++ [t2.length >>> shift] = t1 ++ [t2.length >>> shift]
                rfl
              · rfl
              · rw [heq]
                show t2 ++ bin = t2 ++ bin
                rfl
              · simp
              · intro k hk off hoff
                have hk0 : k = 0 := by
                  simp only [List.length_cons, List.length_nil] at hk
                  omega
                subst hk0
                simp only [List.getD_cons_zero] at hoff ⊢
                rw [shiftRight_shiftLeft_of_mod t2.length shift hlen]
                rw [heq]
                constructor
                · show t2.length + off < (t2 ++ bin).length
                  simp only [List.length_append]
                  omega
                · show (t2 ++ bin)[t2.length + off]? = bin[off]?
                  exact hoff0 off hoff
          | cons r2 rs =>
              have hfull : bin.length = 2 ^ shift := by
                have := hgood2 0 (by simp only [List.length_cons]; omega)
                simpa [List.getD_cons_zero] using this
              have hlen2 : (t2 ++ bin).length % 2 ^ shift = 0 := by
                rw [List.length_append, hfull, Nat.add_mod_right]
                exact hlen
              have hcache2 : ∀ p ∈ cache ++ [(bin, t2.length)],
                  p.2 % 2 ^ shift = 0 ∧ p.2 + p.1.length ≤ (t2 ++ bin).length ∧
                  ∀ off, off < p.1.length → (t2 ++ bin)[p.2 + off]? = p.1[off]? := by
                intro p hp
                rcases List.mem_append.mp hp with hp1 | hp2
                · have hold := hcache p hp1
                  refine ⟨hold.1, ?_, ?_⟩
                  · rw [List.length_append]
                    omega
                  · intro off hoffp
                    rw [List.getElem?_append_left (by omega)]
                    exact hold.2.2 off hoffp
                · have hp2' : p = (bin, t2.length) := by simpa using hp2
                  subst hp2'
                  refine ⟨hlen, by rw [List.length_append], ?_⟩
                  intro off hoffp
                  rw [List.getElem?_append_right (by omega)]
                  congr 1
                  omega
              obtain ⟨app, ext, ha1, ha2, ha3, ha4, ha5⟩ :=
                ih (t1 ++ [t2.length >>> shift]) (t2 ++ bin)
                  (cache ++ [(bin, t2.length)]) hgood1r hgood2r hlen2 hcache2
              refine ⟨(t2.length >>> shift) :: app, bin ++ ext, ?_, ?_, ?_, ?_, ?_⟩
              · rw [heq, ha1, List.append_assoc]
                rfl
              · simp [ha2]
              · rw [heq, ha3, List.append_assoc]
              · simp only [List.map_cons, List.sum_cons] at ha4
                simp only [List.length_append, List.map_cons, List.sum_cons]
                omega
              · intro k hk off hoff
                cases k with
                | zero =>
                    simp only [List.getD_cons_zero] at hoff ⊢
                    rw [shiftRight_shiftLeft_of_mod t2.length shift hlen]
                    rw [heq, ha3]
                    have hlt : t2.length + off < (t2 ++ bin).length := by
                      simp only [List.length_append]
                      omega
                    constructor
                    · simp only [List.length_append] at hlt ⊢
                      omega
                    · rw [List.getElem?_append_left hlt]
                      rw [List.getElem?_append_right (by omega)]
                      congr 1
                      omega
                | succ k =>
                    simp only [List.getD_cons_succ] at hoff ⊢
                    have hk2 : k < (r2 :: rs).length := by
                      simp only [List.length_cons] at hk ⊢
                      omega
                    have := ha5 k hk2 off hoff
                    rw [heq]
                    exact this

lemma splitbinsAt_spec (t : List Int) (ht : t ≠ []) (shift : Nat) :
    (splitbinsAt t shift).1 ≠ []
    ∧ (splitbinsAt t shift).2 ≠ []
    ∧ (splitbinsAt t shift).1.length ≤ t.length
    ∧ (splitbinsAt t shift).2.length ≤ t.length
    ∧ ∀ i, i < t.length →
        ((splitbinsAt t shift).1.getD (i >>> shift) 0 <<< shift) + (i % 2 ^ shift)
            < (splitbinsAt t shift).2.length
        ∧ (splitbinsAt t shift).2.getD
            (((splitbinsAt t shift).1.getD (i >>> shift) 0 <<< shift) + (i % 2 ^ shift)) 0
          = t.getD i 0 := by
  have hs : 0 < 2 ^ shift := Nat.two_pow_pos shift
  have hgood1 := chunksOf_mem (2 ^ shift) hs t.length t (Nat.le_refl _)
  have hgood2 := chunksOf_full (2 ^ shift) hs t.length t (Nat.le_refl _)
  obtain ⟨app, ext, ha1, ha2, ha3, ha4, ha5⟩ :=
    buildGo_spec shift (chunksOf (2 ^ shift) t) [] [] [] hgood1 hgood2
      (by simp) (by intro p hp; simp at hp)
  have hsplit1 : (splitbinsAt t shift).1 = app := by
    show (buildGo shift (chunksOf (2 ^ shift) t) [] [] []).1 = app
    rw [ha1]
    rfl
  have hsplit2 : (splitbinsAt t shift).2 = ext := by
    show (buildGo shift (chunksOf (2 ^ shift) t) [] [] []).2 = ext
    rw [ha3]
    rfl
  have hcs_ne : chunksOf (2 ^ shift) t ≠ [] := by
    rw [chunksOf_eq_cons (2 ^ shift) t ht (by omega)]
    exact List.cons_ne_nil _ _
  have hcs_pos : 0 < (chunksOf (2 ^ shift) t).length := List.length_pos.mpr hcs_ne
  have happ_len : app.length = (chunksOf (2 ^ shift) t).length := ha2
  refine ⟨?_, ?_, ?_, ?_, ?_⟩
  · rw [hsplit1]
    intro hcon
    rw [hcon] at happ_len
    simp at happ_len
    omega
  · rw [hsplit2]
    intro hcon
    have hchunk0 : ∃ c0, chunksOf (2 ^ shift) t = c0 :: (chunksOf (2 ^ shift) t).tail := by
      cases hc : chunksOf (2 ^ shift) t with
      | nil => exact absurd hc hcs_ne
      | cons c0 cr => exact ⟨c0, rfl⟩
    obtain ⟨c0, hc0⟩ := hchunk0
    have hc0mem : c0 ∈ chunksOf (2 ^ shift) t := by
      rw [hc0]
      exact List.mem_cons_self _ _
    have hc0ne := (hgood1 c0 hc0mem).1
    have hc0len : 0 < ((chunksOf (2 ^ shift) t).getD 0 []).length := by
      rw [hc0]
      simp only [List.getD_cons_zero]
      exact List.length_pos.mpr hc0ne
    have := (ha5 0 hcs_pos 0 hc0len).1
    rw [hcon] at hsplit2
    have h2 : (buildGo shift (chunksOf (2 ^ shift) t) [] [] []).2 = [] := hsplit2
    rw [h2] at this
    simp at this
  · rw [hsplit1, happ_len]
    exact chunksOf_length_le (2 ^ shift) hs t.length t (Nat.le_refl _)
  · rw [hsplit2]
    have hext2 : ext.length ≤ ((chunksOf (2 ^ shift) t).map List.length).sum := ha4
    rw [chunksOf_sum (2 ^ shift) hs t.length t (Nat.le_refl _)] at hext2
    exact hext2
  · intro i hi
    obtain ⟨ck, hck1, hck2, hck3⟩ :=
      chunksOf_index (2 ^ shift) hs t.length t i (Nat.le_refl _) hi
    have hdiv_lt : i / 2 ^ shift < (chunksOf (2 ^ shift) t).length := by
      by_contra hge
      push_neg at hge
      rw [List.getElem?_eq_none hge] at hck1
      exact Option.noConfusion hck1
    have hgetD : (chunksOf (2 ^ shift) t).getD (i / 2 ^ shift) [] = ck :=
      getD_eq_of_getElem? _ _ _ _ hck1
    have hoff : i % 2 ^ shift < ((chunksOf (2 ^ shift) t).getD (i / 2 ^ shift) []).length := by
      rw [hgetD]
      exact hck3
    have hmain := ha5 (i / 2 ^ shift) hdiv_lt (i % 2 ^ shift) hoff
    have hshift : i >>> shift = i / 2 ^ shift := Nat.shiftRight_eq_div_pow i shift
    constructor
    · rw [hsplit1, hsplit2, hshift]
      have := hmain.1
      rw [ha3] at this
      simpa using this
    · rw [hsplit1, hsplit2, hshift]
      have hval := hmain.2
      rw [hgetD, hck2] at hval
      have hti : t[i]? = some (t.getD i 0) := by
        rw [List.getElem?_eq_getElem hi]
        rw [List.getD_eq_getElem _ _ hi]
      rw [hti] at hval
      have hval2 : ext[(app.getD (i / 2 ^ shift) 0 <<< shift) + i % 2 ^ shift]?
          = some (t.getD i 0) := by
        have h2 := hval
        rw [ha3] at h2
        simpa using h2
      exact getD_eq_of_getElem? _ _ _ _ hval2

lemma splitbinsLoop_ok (t : List Int) (ht : t ≠ []) :
    ∀ (shifts : List Nat) (bytes : Nat)
      (best : Option (List Nat × List Int × Nat)),
      (∀ a b c, best = some (a, b, c) → (a, b) = splitbinsAt t c) →
      ∃ best2, splitbinsLoop t shifts bytes best = Except.ok best2
        ∧ (∀ a b c, best2 = some (a, b, c) → (a, b) = splitbinsAt t c)
        ∧ (best.isSome = true → best2.isSome = true) := by
  intro shifts
  induction shifts with
  | nil =>
      intro bytes best hbest
      exact ⟨best, rfl, hbest, fun h => h⟩
  | cons sh rest ih =>
      intro bytes best hbest
      have hspec := splitbinsAt_spec t ht sh
      have hg1 : ∃ g, getsize ((splitbinsAt t sh).1.map Int.ofNat) = Except.ok g
          ∧ 1 ≤ g ∧ g ≤ 4 := by
        refine getsize_ok _ ?_
        intro hcon
        rw [List.map_eq_nil_iff] at hcon
        exact hspec.1 hcon
      have hg2 : ∃ g, getsize (splitbinsAt t sh).2 = Except.ok g
          ∧ 1 ≤ g ∧ g ≤ 4 := getsize_ok _ hspec.2.1
      obtain ⟨g1, hg1e, _, _⟩ := hg1
      obtain ⟨g2, hg2e, _, _⟩ := hg2
      have hstep : splitbinsLoop t (sh :: rest) bytes best
          = (getsize ((splitbinsAt t sh).1.map Int.ofNat)).bind fun g1 =>
              (getsize (splitbinsAt t sh).2).bind fun g2 =>
                if (splitbinsAt t sh).1.length * g1
                    + (splitbinsAt t sh).2.length * g2 < bytes then
                  splitbinsLoop t rest
                    ((splitbinsAt t sh).1.length * g1
                      + (splitbinsAt t sh).2.length * g2)
                    (some ((splitbinsAt t sh).1, (splitbinsAt t sh).2, sh))
                else splitbinsLoop t rest bytes best := rfl
      rw [hstep, hg1e, hg2e]
      simp only [Except.bind]
      by_cases hlt : (splitbinsAt t sh).1.length * g1
          + (splitbinsAt t sh).2.length * g2 < bytes
      · rw [if_pos hlt]
        have hbest2 : ∀ a b c,
            (some ((splitbinsAt t sh).1, (splitbinsAt t sh).2, sh)
              : Option (List Nat × List Int × Nat)) = some (a, b, c) →
            (a, b) = splitbinsAt t c := by
          intro a b c h
          injection h with h
          have h1 : (splitbinsAt t sh).1 = a := congrArg Prod.fst h
          have h2 : ((splitbinsAt t sh).2, sh) = (b, c) := congrArg Prod.snd h
          have h3 : (splitbinsAt t sh).2 = b := congrArg Prod.fst h2
          have h4 : sh = c := congrArg Prod.snd h2
          subst h4
          rw [← h1, ← h3]
        obtain ⟨best2, hb1, hb2, hb3⟩ := ih _ _ hbest2
        exact ⟨best2, hb1, hb2, fun _ => hb3 rfl⟩
      · rw [if_neg hlt]
        exact ih bytes best hbest

/-- C7 counterexample: `splitbins` on the empty sequence raises ValueError
(`getsize` takes `max(data)` of an empty stage list in the very first
iteration of the shift loop), so it does not return a reconstruction
triple for every finite sequence of integers. -/
theorem splitbins_empty_counterexample :
    splitbins ([] : List Int) = Except.error PyErr.valueError := by
  have hsp : splitbinsAt ([] : List Int) 0 = ([], []) := by
    unfold splitbinsAt
    rw [chunksOf_nil]
    rfl
  have hloop : splitbinsLoop ([] : List Int) [0] sys_maxsize none
      = Except.error PyErr.valueError := by
    have hstep : splitbinsLoop ([] : List Int) [0] sys_maxsize none
        = (getsize ((splitbinsAt ([] : List Int) 0).1.map Int.ofNat)).bind fun g1 =>
            (getsize (splitbinsAt ([] : List Int) 0).2).bind fun g2 =>
              if (splitbinsAt ([] : List Int) 0).1.length * g1
                  + (splitbinsAt ([] : List Int) 0).2.length * g2 < sys_maxsize then
                splitbinsLoop ([] : List Int) []
                  ((splitbinsAt ([] : List Int) 0).1.length * g1
                    + (splitbinsAt ([] : List Int) 0).2.length * g2)
                  (some ((splitbinsAt ([] : List Int) 0).1,
                    (splitbinsAt ([] : List Int) 0).2, 0))
              else splitbinsLoop ([] : List Int) [] sys_maxsize none := rfl
    rw [hstep, hsp]
    rfl
  have hms : maxshiftOf ([] : List Int) = 0 := by
    unfold maxshiftOf
    rw [if_neg (by simp)]
  unfold splitbins
  rw [hms]
  have hr : List.range (0 + 1) = [0] := rfl
  rw [hr, hloop]
  rfl

/-- C7 as amended: for every non-empty integer sequence (whose 8-fold
length stays below `sys.maxsize`, as any real table does), `splitbins`
returns `(t1, t2, shift)` satisfying the two-stage reconstruction
invariant `t[i] == t2[(t1[i >> shift] << shift) + (i & ((1 << shift) - 1))]`
for every index of the input, with the `t2` index in range. -/
theorem splitbins_reconstruction_amended (t : List Int) (ht : t ≠ [])
    (hbound : 8 * t.length < sys_maxsize) :
    reconstructionOk t (splitbins t) := by
  have hrange : List.range (maxshiftOf t + 1)
      = 0 :: (List.range (maxshiftOf t)).map (· + 1) :=
    List.range_succ_eq_map _
  have hspec0 := splitbinsAt_spec t ht 0
  obtain ⟨g1, hg1e, hg11, hg14⟩ :=
    getsize_ok ((splitbinsAt t 0).1.map Int.ofNat) (by
      intro hcon
      rw [List.map_eq_nil_iff] at hcon
      exact hspec0.1 hcon)
  obtain ⟨g2, hg2e, hg21, hg24⟩ := getsize_ok (splitbinsAt t 0).2 hspec0.2.1
  have hcost : (splitbinsAt t 0).1.length * g1
      + (splitbinsAt t 0).2.length * g2 < sys_maxsize := by
    have h1 : (splitbinsAt t 0).1.length ≤ t.length := hspec0.2.2.1
    have h2 : (splitbinsAt t 0).2.length ≤ t.length := hspec0.2.2.2.1
    have hm1 : (splitbinsAt t 0).1.length * g1 ≤ t.length * 4 :=
      Nat.mul_le_mul h1 hg14
    have hm2 : (splitbinsAt t 0).2.length * g2 ≤ t.length * 4 :=
      Nat.mul_le_mul h2 hg24
    omega
  have hstep : splitbinsLoop t (0 :: (List.range (maxshiftOf t)).map (· + 1))
        sys_maxsize none
      = splitbinsLoop t ((List.range (maxshiftOf t)).map (· + 1))
          ((splitbinsAt t 0).1.length * g1 + (splitbinsAt t 0).2.length * g2)
          (some ((splitbinsAt t 0).1, (splitbinsAt t 0).2, 0)) := by
    have h0 : splitbinsLoop t (0 :: (List.range (maxshiftOf t)).map (· + 1))
          sys_maxsize none
        = (getsize ((splitbinsAt t 0).1.map Int.ofNat)).bind fun g1 =>
            (getsize (splitbinsAt t 0).2).bind fun g2 =>
              if (splitbinsAt t 0).1.length * g1
                  + (splitbinsAt t 0).2.length * g2 < sys_maxsize then
                splitbinsLoop t ((List.range (maxshiftOf t)).map (· + 1))
                  ((splitbinsAt t 0).1.length * g1
                    + (splitbinsAt t 0).2.length * g2)
                  (some ((splitbinsAt t 0).1, (splitbinsAt t 0).2, 0))
              else splitbinsLoop t ((List.range (maxshiftOf t)).map (· + 1))
                sys_maxsize none := rfl
    rw [h0, hg1e, hg2e]
    simp only [Except.bind]
    rw [if_pos hcost]
  have hbest0 : ∀ (a : List Nat) (b : List Int) (c : Nat),
      (some ((splitbinsAt t 0).1, (splitbinsAt t 0).2, 0)
        : Option (List Nat × List Int × Nat)) = some (a, b, c) →
      (a, b) = splitbinsAt t c := by
    intro a b c h
    injection h with h
    have h1 : (splitbinsAt t 0).1 = a := congrArg Prod.fst h
    have h2 : ((splitbinsAt t 0).2, 0) = (b, c) := congrArg Prod.snd h
    have h3 : (splitbinsAt t 0).2 = b := congrArg Prod.fst h2
    have h4 : (0 : Nat) = c := congrArg Prod.snd h2
    subst h4
    rw [← h1, ← h3]
  obtain ⟨best2, hb1, hb2, hb3⟩ :=
    splitbinsLoop_ok t ht ((List.range (maxshiftOf t)).map (· + 1))
      ((splitbinsAt t 0).1.length * g1 + (splitbinsAt t 0).2.length * g2)
      (some ((splitbinsAt t 0).1, (splitbinsAt t 0).2, 0)) hbest0
  have hsome : best2.isSome = true := hb3 rfl
  obtain ⟨⟨a, b, c⟩, hbv⟩ := Option.isSome_iff_exists.mp hsome
  have hab : (a, b) = splitbinsAt t c := hb2 a b c hbv
  have hfinal : splitbins t = Except.ok (a, b, c) := by
    unfold splitbins
    rw [hrange, hstep, hb1]
    rw [hbv]
    rfl
  rw [hfinal]
  show ∀ i, i < t.length →
    (a.getD (i >>> c) 0 <<< c) + (i &&& ((1 <<< c) - 1)) < b.length
    ∧ b.getD ((a.getD (i >>> c) 0 <<< c) + (i &&& ((1 <<< c) - 1))) 0 = t.getD i 0
  intro i hi
  have hrec := (splitbinsAt_spec t ht c).2.2.2.2 i hi
  have ha : a = (splitbinsAt t c).1 := congrArg Prod.fst hab
  have hbeq : b = (splitbinsAt t c).2 := congrArg Prod.snd hab
  have hmask : i &&& ((1 <<< c) - 1) = i % 2 ^ c := by
    rw [Nat.one_shiftLeft]
    exact Nat.and_pow_two_sub_one_eq_mod i c
  rw [ha, hbeq, hmask]
  exact hrec

/-- Witness for `splitbins_reconstruction_amended` at a concrete table. -/
theorem splitbins_reconstruction_amended_witness :
    ([5, 7, 5] : List Int) ≠ [] ∧ 8 * ([5, 7, 5] : List Int).length < sys_maxsize
      ∧ reconstructionOk [5, 7, 5] (splitbins [5, 7, 5]) :=
  ⟨by decide, by decide,
    splitbins_reconstruction_amended [5, 7, 5] (by decide) (by decide)⟩
